import Mathlib

/-!
Verification of the ordered-index engine and the tree/visitor engine of this
repository (`src/types.ts`): the `BinarySearch` class, the `SuffixArray` class
built on it, `Tree.traverse` / `Tree.previousSibling`, and `MultiVisitor`.

Machine integers of the source are modelled as `Nat`/`Int` (all indices stay
far below 2^53, where JS number arithmetic is exact), fallible operations as
`Option`/`Except`, and the locale collator as code-point lexicographic string
comparison.
-/

set_option maxHeartbeats 1000000

namespace Spec2Proof

structure BinarySearchResult where
  rank : Nat
  isExactMatch : Bool
deriving DecidableEq

@[simp] theorem BinarySearchResult.rank_mk (r : Nat) (e : Bool) :
    (BinarySearchResult.mk r e).rank = r := rfl

@[simp] theorem BinarySearchResult.isExactMatch_mk (r : Nat) (e : Bool) :
    (BinarySearchResult.mk r e).isExactMatch = e := rfl

namespace BinarySearch

variable {α : Type} [Inhabited α]

/-- The `while` loop of `BinarySearch._search` (src/src/types.ts:385-415).
`rp1` stands for `right + 1` (so the JS `right` may be `-1` while `rp1` is a
`Nat`): the JS guard `left > right` is `¬ left < rp1`, the JS
`mid = Math.floor((left + right) / 2)` is `(left + rp1 - 1) / 2`, and the move
`right = mid - 1` is `rp1 := mid`.  `fuel` only makes the recursion structural:
the loop shrinks `rp1 - left` on every iteration, so any `fuel ≥ rp1 - left`
computes the loop's value (callers pass `arr.length + 1`). -/
def searchGo (arr : List α) (cmp : α → Int) : Nat → Nat → Nat → BinarySearchResult
  | 0, left, _ => ⟨left, false⟩
  | fuel + 1, left, rp1 =>
    if left < rp1 then
      let mid := (left + rp1 - 1) / 2
      let c := cmp (arr.getD mid default)
      if c < 0 then searchGo arr cmp fuel (mid + 1) rp1
      else if 0 < c then searchGo arr cmp fuel left mid
      else ⟨mid, true⟩
    else ⟨left, false⟩

/-- Model of `BinarySearch._search(compare, left)`: `right` starts at
`this._sortedArray.length - 1`, i.e. `rp1 = arr.length`. -/
def search (arr : List α) (cmp : α → Int) (left : Nat) : BinarySearchResult :=
  searchGo arr cmp (arr.length + 1) left arr.length

/-- Model of `BinarySearch.find(compare)` (src/src/types.ts:371-374): the matching
element when the search hit an exact match, otherwise `null`. -/
def find (arr : List α) (cmp : α → Int) : Option α :=
  let result := search arr cmp 0
  if result.isExactMatch then some (arr.getD result.rank default) else none

/-- Model of `BinarySearch.rank(compare)` (src/src/types.ts:376-378). -/
def rank (arr : List α) (cmp : α → Int) : Nat :=
  (search arr cmp 0).rank

/-- Model of `BinarySearch.range(compareLower, compareUpper)` (src/src/types.ts:380-383):
`slice(rankLower, upperRank)` where the upper search starts at `rankLower + 1`;
JS `slice(a, b)` is `take b` followed by `drop a`. -/
def range (arr : List α) (cmpL cmpU : α → Int) : List α :=
  let rankLower := rank arr cmpL
  (arr.take (search arr cmpU (rankLower + 1)).rank).drop rankLower

/-- The comparator is nondecreasing along the array: the shape every caller of
`_search` must guarantee ("ascending-sorted" relative to the probe, with the
convention fixed by the loop's branch directions: a negative comparator value
sends the search right, so elements standing before the probe's position must
compare negative). -/
def CmpMono (arr : List α) (cmp : α → Int) : Prop :=
  ∀ j, j < arr.length → ∀ i, i ≤ j →
    cmp (arr.getD i default) ≤ cmp (arr.getD j default)

/-- The loop never answers a rank below its starting `left`. -/
theorem searchGo_rank_ge (arr : List α) (cmp : α → Int) (fuel : Nat) :
    ∀ left rp1, left ≤ (searchGo arr cmp fuel left rp1).rank := by
  induction fuel with
  | zero => intro left rp1; simp [searchGo]
  | succ n ih =>
    intro left rp1
    by_cases h : left < rp1
    · simp only [searchGo, if_pos h]
      have hm : left ≤ (left + rp1 - 1) / 2 := by omega
      by_cases hc1 : cmp (arr.getD ((left + rp1 - 1) / 2) default) < 0
      · rw [if_pos hc1]
        exact le_trans (by omega) (ih ((left + rp1 - 1) / 2 + 1) rp1)
      · rw [if_neg hc1]
        by_cases hc2 : 0 < cmp (arr.getD ((left + rp1 - 1) / 2) default)
        · rw [if_pos hc2]
          exact ih left ((left + rp1 - 1) / 2)
        · rw [if_neg hc2]
          exact hm
    · simp [searchGo, if_neg h]

/-- On an exact match the loop stops inside `[left, rp1)` at an element the
comparator sends to `0`. -/
theorem searchGo_exact_spec (arr : List α) (cmp : α → Int) (fuel left rp1 : Nat)
    (hfuel : rp1 - left ≤ fuel)
    (hex : (searchGo arr cmp fuel left rp1).isExactMatch = true) :
    (searchGo arr cmp fuel left rp1).rank < rp1 ∧
      cmp (arr.getD (searchGo arr cmp fuel left rp1).rank default) = 0 := by
  induction fuel generalizing left rp1 with
  | zero => simp [searchGo] at hex
  | succ n ih =>
    by_cases h : left < rp1
    · simp only [searchGo, if_pos h] at hex ⊢
      by_cases hc1 : cmp (arr.getD ((left + rp1 - 1) / 2) default) < 0
      · rw [if_pos hc1] at hex ⊢
        exact ih ((left + rp1 - 1) / 2 + 1) rp1 (by omega) hex
      · rw [if_neg hc1] at hex ⊢
        by_cases hc2 : 0 < cmp (arr.getD ((left + rp1 - 1) / 2) default)
        · rw [if_pos hc2] at hex ⊢
          have := ih left ((left + rp1 - 1) / 2) (by omega) hex
          exact ⟨by omega, this.2⟩
        · rw [if_neg hc2] at hex ⊢
          refine ⟨?_, ?_⟩
          · show (left + rp1 - 1) / 2 < rp1
            omega
          · show cmp (arr.getD ((left + rp1 - 1) / 2) default) = 0
            omega
    · simp [searchGo, if_neg h] at hex

/-- When no exact match is found, the rank splits the probed interval: every
index before it compares negative, every index at or after it (below `rp1`)
compares positive.  Needs the comparator to be nondecreasing along the array. -/
theorem searchGo_noexact_spec (arr : List α) (cmp : α → Int) (fuel left rp1 : Nat)
    (hlen : rp1 ≤ arr.length) (hfuel : rp1 - left ≤ fuel)
    (hmono : CmpMono arr cmp)
    (hne : (searchGo arr cmp fuel left rp1).isExactMatch = false) :
    (∀ j, left ≤ j → j < (searchGo arr cmp fuel left rp1).rank →
      cmp (arr.getD j default) < 0) ∧
    (∀ j, (searchGo arr cmp fuel left rp1).rank ≤ j → j < rp1 →
      0 < cmp (arr.getD j default)) ∧
    (searchGo arr cmp fuel left rp1).rank ≤ max left rp1 := by
  induction fuel generalizing left rp1 with
  | zero =>
    have hr : rp1 ≤ left := by omega
    simp only [searchGo, BinarySearchResult.rank_mk]
    refine ⟨?_, ?_, ?_⟩
    · intro j h1 h2; omega
    · intro j h1 h2; omega
    · omega
  | succ n ih =>
    by_cases h : left < rp1
    · simp only [searchGo, if_pos h] at hne ⊢
      have hmlt : (left + rp1 - 1) / 2 < rp1 := by omega
      have hmge : left ≤ (left + rp1 - 1) / 2 := by omega
      by_cases hc1 : cmp (arr.getD ((left + rp1 - 1) / 2) default) < 0
      · rw [if_pos hc1] at hne ⊢
        obtain ⟨h1, h2, h3⟩ := ih ((left + rp1 - 1) / 2 + 1) rp1 hlen (by omega) hne
        refine ⟨?_, h2, by omega⟩
        intro j hj1 hj2
        by_cases hjm : (left + rp1 - 1) / 2 + 1 ≤ j
        · exact h1 j hjm hj2
        · have := hmono ((left + rp1 - 1) / 2) (by omega) j (by omega)
          omega
      · rw [if_neg hc1] at hne ⊢
        by_cases hc2 : 0 < cmp (arr.getD ((left + rp1 - 1) / 2) default)
        · rw [if_pos hc2] at hne ⊢
          obtain ⟨h1, h2, h3⟩ := ih left ((left + rp1 - 1) / 2) (by omega) (by omega) hne
          refine ⟨h1, ?_, by omega⟩
          intro j hj1 hj2
          by_cases hjm : j < (left + rp1 - 1) / 2
          · exact h2 j hj1 hjm
          · have := hmono j (by omega) ((left + rp1 - 1) / 2) (by omega)
            omega
        · rw [if_neg hc2] at hne
          simp at hne
    · simp only [searchGo, if_neg h, BinarySearchResult.rank_mk]
      refine ⟨?_, ?_, ?_⟩
      · intro j h1 h2; omega
      · intro j h1 h2; omega
      · omega

/-- Restatement of `searchGo_exact_spec` at the `_search` level. -/
theorem search_exact_spec (arr : List α) (cmp : α → Int) (left : Nat)
    (hex : (search arr cmp left).isExactMatch = true) :
    left ≤ (search arr cmp left).rank ∧ (search arr cmp left).rank < arr.length ∧
      cmp (arr.getD (search arr cmp left).rank default) = 0 := by
  have h := searchGo_exact_spec arr cmp (arr.length + 1) left arr.length (by omega) hex
  exact ⟨searchGo_rank_ge arr cmp (arr.length + 1) left arr.length, h.1, h.2⟩

/-- Restatement of `searchGo_noexact_spec` at the `_search` level. -/
theorem search_noexact_spec (arr : List α) (cmp : α → Int) (left : Nat)
    (hmono : CmpMono arr cmp)
    (hne : (search arr cmp left).isExactMatch = false) :
    (∀ j, left ≤ j → j < (search arr cmp left).rank → cmp (arr.getD j default) < 0) ∧
    (∀ j, (search arr cmp left).rank ≤ j → j < arr.length → 0 < cmp (arr.getD j default)) ∧
    left ≤ (search arr cmp left).rank ∧
    (search arr cmp left).rank ≤ max left arr.length := by
  have h := searchGo_noexact_spec arr cmp (arr.length + 1) left arr.length le_rfl
    (by omega) hmono hne
  exact ⟨h.1, h.2.1, searchGo_rank_ge arr cmp (arr.length + 1) left arr.length, h.2.2⟩

/-- If some probed index compares to `0`, the search reports an exact match. -/
theorem search_complete (arr : List α) (cmp : α → Int) (left : Nat)
    (hmono : CmpMono arr cmp) (j : Nat) (hj1 : left ≤ j) (hj2 : j < arr.length)
    (hz : cmp (arr.getD j default) = 0) :
    (search arr cmp left).isExactMatch = true := by
  rcases Bool.eq_false_or_eq_true (search arr cmp left).isExactMatch with hex | hne
  · exact hex
  · obtain ⟨h1, h2, _⟩ := search_noexact_spec arr cmp left hmono hne
    by_cases hjr : j < (search arr cmp left).rank
    · have := h1 j hj1 hjr; omega
    · have := h2 j (by omega) hj2; omega

/-- On an exact match with a monotone comparator, everything left of the rank
compares `≤ 0` and everything right of it (in bounds) compares `≥ 0`. -/
theorem search_exact_bounds (arr : List α) (cmp : α → Int) (left : Nat)
    (hmono : CmpMono arr cmp)
    (hex : (search arr cmp left).isExactMatch = true) :
    (∀ j, j ≤ (search arr cmp left).rank → cmp (arr.getD j default) ≤ 0) ∧
    (∀ j, (search arr cmp left).rank ≤ j → j < arr.length →
      0 ≤ cmp (arr.getD j default)) := by
  obtain ⟨_, hlt, hz⟩ := search_exact_spec arr cmp left hex
  constructor
  · intro j hj
    have := hmono (search arr cmp left).rank hlt j hj
    omega
  · intro j hj1 hj2
    have := hmono j hj2 (search arr cmp left).rank hj1
    omega

end BinarySearch

section ListHelpers

variable {α : Type} [Inhabited α]

/-- In bounds, `getD` is plain element access. -/
theorem getD_eq_getElem_of_lt (l : List α) (n : Nat) (h : n < l.length) :
    l.getD n default = l[n] := by
  simp [List.getD_eq_getElem?_getD, List.getElem?_eq_getElem h]

end ListHelpers

section ListHelpers2

variable {α : Type}

/-- An element at an index `≥ i` belongs to `l.drop i`. -/
theorem mem_drop_of_le (l : List α) (i j : Nat) (h1 : i ≤ j) (h2 : j < l.length) :
    l[j] ∈ l.drop i := by
  have h3 : (l.drop i)[j - i]? = some l[j] := by
    rw [List.getElem?_drop, show i + (j - i) = j from by omega]
    exact List.getElem?_eq_getElem h2
  exact List.getElem?_mem h3

/-- An element at an index `< i` belongs to `l.take i`. -/
theorem mem_take_of_lt (l : List α) (i j : Nat) (h1 : j < i) (h2 : j < l.length) :
    l[j] ∈ l.take i := by
  have h3 : (l.take i)[j]? = some l[j] := by
    rw [List.getElem?_take_of_lt h1]
    exact List.getElem?_eq_getElem h2
  exact List.getElem?_mem h3

end ListHelpers2

section BinarySearchInt

/-- Over an ascending-sorted `Int` array the comparator `n ↦ n - k` encoding a
probe key `k` is nondecreasing along the array. -/
theorem cmpMono_of_sorted (arr : List Int) (k : Int) (hs : List.Sorted (· ≤ ·) arr) :
    BinarySearch.CmpMono arr (fun n => n - k) := by
  intro j hj i hij
  rcases Nat.eq_or_lt_of_le hij with rfl | hlt
  · exact le_rfl
  · have h := List.pairwise_iff_getElem.mp hs i j (by omega) hj hlt
    rw [getD_eq_getElem_of_lt arr i (by omega), getD_eq_getElem_of_lt arr j hj]
    simp only []
    omega

/-- Index-level facts about `rank` on a sorted `Int` array: everything before
the rank is `≤ k`, everything at or after it is `≥ k`, the rank is in bounds,
and when at most one element equals `k` everything before the rank is `< k`. -/
theorem rank_facts (arr : List Int) (k : Int) (hs : List.Sorted (· ≤ ·) arr) :
    (∀ j, j < BinarySearch.rank arr (fun n => n - k) → arr.getD j default ≤ k) ∧
    (∀ j, BinarySearch.rank arr (fun n => n - k) ≤ j → j < arr.length →
      k ≤ arr.getD j default) ∧
    BinarySearch.rank arr (fun n => n - k) ≤ arr.length ∧
    ((∀ i, i < arr.length → ∀ j, j < arr.length →
        arr.getD i default = k → arr.getD j default = k → i = j) →
      ∀ j, j < BinarySearch.rank arr (fun n => n - k) → arr.getD j default < k) := by
  unfold BinarySearch.rank
  have hmono := cmpMono_of_sorted arr k hs
  rcases Bool.eq_false_or_eq_true
      (BinarySearch.search arr (fun n => n - k) 0).isExactMatch with hex | hne
  · obtain ⟨_, hlt, hz⟩ := BinarySearch.search_exact_spec arr _ 0 hex
    obtain ⟨hA, hB⟩ := BinarySearch.search_exact_bounds arr _ 0 hmono hex
    have hz' : arr.getD (BinarySearch.search arr (fun n => n - k) 0).rank default - k = 0 := hz
    refine ⟨?_, ?_, by omega, ?_⟩
    · intro j hj
      have := hA j (le_of_lt hj)
      simp only [] at this
      omega
    · intro j hj1 hj2
      have := hB j hj1 hj2
      simp only [] at this
      omega
    · intro huniq j hj
      have hle := hA j (le_of_lt hj)
      simp only [] at hle
      by_contra hcon
      have hjk : arr.getD j default = k := by omega
      have := huniq j (by omega) (BinarySearch.search arr (fun n => n - k) 0).rank hlt
        hjk (by omega)
      omega
  · obtain ⟨h1, h2, _, h4⟩ := BinarySearch.search_noexact_spec arr _ 0 hmono hne
    refine ⟨?_, ?_, by omega, ?_⟩
    · intro j hj
      have := h1 j (Nat.zero_le j) hj
      simp only [] at this
      omega
    · intro j hj1 hj2
      have := h2 j hj1 hj2
      simp only [] at this
      omega
    · intro _ j hj
      have := h1 j (Nat.zero_le j) hj
      simp only [] at this
      omega

/-- Inserting `k` at position `i` of `arr` keeps the sequence ascending-sorted
(JS `splice(i, 0, k)` semantics). -/
def keepsSorted (arr : List Int) (k : Int) (i : Nat) : Prop :=
  List.Sorted (· ≤ ·) (arr.take i ++ k :: arr.drop i)

/-- Insertion at `i` keeps the array sorted exactly when everything before `i`
is `≤ k` and everything from `i` on is `≥ k`. -/
theorem keepsSorted_iff (arr : List Int) (k : Int) (i : Nat)
    (hs : List.Sorted (· ≤ ·) arr) (hi : i ≤ arr.length) :
    keepsSorted arr k i ↔
      (∀ j, j < i → arr.getD j default ≤ k) ∧
      (∀ j, i ≤ j → j < arr.length → k ≤ arr.getD j default) := by
  unfold keepsSorted
  rw [List.Sorted, List.pairwise_append, List.pairwise_cons]
  constructor
  · rintro ⟨-, ⟨hhead, -⟩, hcross⟩
    constructor
    · intro j hj
      have hjl : j < arr.length := by omega
      rw [getD_eq_getElem_of_lt arr j hjl]
      exact hcross arr[j] (mem_take_of_lt arr i j hj hjl) k (List.mem_cons_self k _)
    · intro j hj1 hj2
      rw [getD_eq_getElem_of_lt arr j hj2]
      exact hhead arr[j] (mem_drop_of_le arr i j hj1 hj2)
  · rintro ⟨hbefore, hafter⟩
    refine ⟨List.Pairwise.sublist (List.take_sublist i arr) hs,
      ⟨?_, List.Pairwise.sublist (List.drop_sublist i arr) hs⟩, ?_⟩
    · intro b hb
      obtain ⟨m, hm, hbm⟩ := List.mem_iff_getElem.mp hb
      have := @List.getElem_drop _ arr i m hm
      have hlen : i + m < arr.length := by
        rw [List.length_drop] at hm; omega
      subst hbm
      rw [this]
      have := hafter (i + m) (by omega) hlen
      rw [getD_eq_getElem_of_lt arr (i + m) hlen] at this
      exact this
    · intro a ha b hb
      obtain ⟨m, hm, ham⟩ := List.mem_iff_getElem.mp ha
      have hmt : m < i := by rw [List.length_take] at hm; omega
      have hml : m < arr.length := by rw [List.length_take] at hm; omega
      have hta : (arr.take i)[m] = arr[m] := List.getElem_take arr
      have hak : a ≤ k := by
        subst ham
        rw [hta]
        have := hbefore m hmt
        rw [getD_eq_getElem_of_lt arr m hml] at this
        exact this
      rcases List.mem_cons.mp hb with rfl | hbd
      · exact hak
      · obtain ⟨m2, hm2, hbm2⟩ := List.mem_iff_getElem.mp hbd
        have hlen2 : i + m2 < arr.length := by
          rw [List.length_drop] at hm2; omega
        have htb : (arr.drop i)[m2] = arr[i + m2] := List.getElem_drop arr
        have hkb : k ≤ b := by
          subst hbm2
          rw [htb]
          have := hafter (i + m2) (by omega) hlen2
          rw [getD_eq_getElem_of_lt arr (i + m2) hlen2] at this
          exact this
        exact le_trans hak hkb

end BinarySearchInt

section ClaimC1

/-- C1.  For every ascending-sorted array `S` and probe key `k` (encoded, with
the sign convention `_search`'s branches impose, as the three-way comparator
`n ↦ n - k`), `BinarySearch.find` returns the matching element exactly when `S`
contains an element comparing equal to `k`, and returns `null` (`none`)
otherwise. -/
theorem C1_find_iff_mem (arr : List Int) (k : Int)
    (hs : List.Sorted (· ≤ ·) arr) :
    (BinarySearch.find arr (fun n => n - k) = some k ↔ k ∈ arr) ∧
    (BinarySearch.find arr (fun n => n - k) = none ↔ k ∉ arr) := by
  have hmono := cmpMono_of_sorted arr k hs
  have main : (BinarySearch.search arr (fun n => n - k) 0).isExactMatch = true ↔
      k ∈ arr := by
    constructor
    · intro hex
      obtain ⟨_, hlt, hz⟩ := BinarySearch.search_exact_spec arr _ 0 hex
      have hz' : arr.getD (BinarySearch.search arr (fun n => n - k) 0).rank default - k
          = 0 := hz
      have hk : arr.getD (BinarySearch.search arr (fun n => n - k) 0).rank default
          = k := by omega
      rw [getD_eq_getElem_of_lt arr _ hlt] at hk
      exact hk ▸ List.getElem_mem hlt
    · intro hk
      obtain ⟨j, hj, hjk⟩ := List.mem_iff_getElem.mp hk
      apply BinarySearch.search_complete arr _ 0 hmono j (Nat.zero_le j) hj
      show arr.getD j default - k = 0
      rw [getD_eq_getElem_of_lt arr j hj, hjk]
      omega
  constructor
  · constructor
    · intro hf
      apply main.mp
      rcases Bool.eq_false_or_eq_true
          (BinarySearch.search arr (fun n => n - k) 0).isExactMatch with hex | hne
      · exact hex
      · rw [BinarySearch.find] at hf
        simp only [hne] at hf
        simp at hf
    · intro hk
      have hex := main.mpr hk
      obtain ⟨_, hlt, hz⟩ := BinarySearch.search_exact_spec arr _ 0 hex
      have hz' : arr.getD (BinarySearch.search arr (fun n => n - k) 0).rank default - k
          = 0 := hz
      rw [BinarySearch.find]
      simp only [hex, if_true]
      congr 1
      omega
  · constructor
    · intro hf hk
      have hex := main.mpr hk
      rw [BinarySearch.find] at hf
      simp only [hex, if_true] at hf
      simp at hf
    · intro hk
      have hne : (BinarySearch.search arr (fun n => n - k) 0).isExactMatch = false := by
        rcases Bool.eq_false_or_eq_true
            (BinarySearch.search arr (fun n => n - k) 0).isExactMatch with hex | hne
        · exact absurd (main.mp hex) hk
        · exact hne
      rw [BinarySearch.find]
      simp only [hne]
      simp

/-- Witness for C1 at a concrete sorted array and probe. -/
theorem C1_witness :
    List.Sorted (· ≤ ·) [(1 : Int), 3, 5] ∧
      ((BinarySearch.find [(1 : Int), 3, 5] (fun n => n - 3) = some 3 ↔
          (3 : Int) ∈ [(1 : Int), 3, 5]) ∧
        (BinarySearch.find [(1 : Int), 3, 5] (fun n => n - 3) = none ↔
          (3 : Int) ∉ [(1 : Int), 3, 5])) :=
  ⟨by decide, C1_find_iff_mem [(1 : Int), 3, 5] 3 (by decide)⟩

end ClaimC1

section ClaimC2

/-- C2 counterexample.  On the sorted array `[0, 0, 0]` with probe key `0`,
`rank` answers `1`, yet inserting `0` at the strictly smaller index `0` also
keeps the array sorted — so `rank` is not the smallest sorted-keeping insertion
index (not the classic lower bound, which is `0` here). -/
theorem C2_counterexample :
    BinarySearch.rank [(0 : Int), 0, 0] (fun n => n - 0) = 1 ∧
      keepsSorted [(0 : Int), 0, 0] 0 0 ∧
      (0 : Nat) < BinarySearch.rank [(0 : Int), 0, 0] (fun n => n - 0) := by
  refine ⟨by decide, ?_, by decide⟩
  show List.Sorted (· ≤ ·) _
  decide

/-- C2, amended.  `rank` returns *an* index at which inserting the probe keeps
the array sorted; it is the smallest such index (the classic lower bound)
whenever at most one element of the array compares equal to the probe (e.g.
for strictly-sorted arrays), but for a run of elements equal to the probe it
may stop in the middle of the run. -/
theorem C2_rank_insertion (arr : List Int) (k : Int)
    (hs : List.Sorted (· ≤ ·) arr) :
    keepsSorted arr k (BinarySearch.rank arr (fun n => n - k)) ∧
    ((∀ i, i < arr.length → ∀ j, j < arr.length →
        arr.getD i default = k → arr.getD j default = k → i = j) →
      ∀ m, m < BinarySearch.rank arr (fun n => n - k) → ¬ keepsSorted arr k m) := by
  obtain ⟨hble, hkle, hrlen, hstrict⟩ := rank_facts arr k hs
  constructor
  · exact (keepsSorted_iff arr k _ hs hrlen).mpr ⟨hble, hkle⟩
  · intro huniq m hm
    intro hks
    have hmlen : m < arr.length := by omega
    have h1 := ((keepsSorted_iff arr k m hs (by omega)).mp hks).2 m le_rfl hmlen
    have h2 := hstrict huniq m hm
    omega

/-- Witness for C2 at a concrete strictly-sorted array and probe. -/
theorem C2_witness :
    List.Sorted (· ≤ ·) [(1 : Int), 3, 5] ∧
      keepsSorted [(1 : Int), 3, 5] 4 (BinarySearch.rank [(1 : Int), 3, 5] (fun n => n - 4)) :=
  ⟨by decide, (C2_rank_insertion [(1 : Int), 3, 5] 4 (by decide)).1⟩

end ClaimC2

section ClaimC4

variable {α : Type} [Inhabited α]

/-- C4 counterexample.  On the sorted singleton `[1]` with both comparators
encoding probe key `0` (`n ↦ n - 0`), no element satisfies both bounds
(`0 ≤ cmpL x ∧ cmpU x ≤ 0` fails at `x = 1`), yet `range` returns `[1]`, not
the empty sequence: the upper search starts at `rankLower + 1`, so the element
at `rankLower` is always included. -/
theorem C4_counterexample :
    BinarySearch.range [(1 : Int)] (fun n => n - 0) (fun n => n - 0) = [1] ∧
      (∀ x ∈ [(1 : Int)], ¬ (0 ≤ x - 0 ∧ x - 0 ≤ 0)) := by
  decide

/-- C4, amended.  For comparators that are nondecreasing along the array,
`range` returns a contiguous sub-sequence of the array; every returned element
satisfies the lower comparator's bound (`0 ≤ compareLower x`), and every
returned element except possibly the first satisfies the upper comparator's
bound (`compareUpper x ≤ 0`).  It is *not* always empty when no element
satisfies both: since the second search starts from `rankLower + 1`, the
element at `rankLower` is returned whenever `rankLower` is in bounds. -/
theorem C4_range_spec (arr : List α) (cmpL cmpU : α → Int)
    (hL : BinarySearch.CmpMono arr cmpL) (hU : BinarySearch.CmpMono arr cmpU) :
    (∃ l1 l2, arr = l1 ++ BinarySearch.range arr cmpL cmpU ++ l2) ∧
    (∀ x ∈ BinarySearch.range arr cmpL cmpU, 0 ≤ cmpL x) ∧
    (∀ x ∈ (BinarySearch.range arr cmpL cmpU).drop 1, cmpU x ≤ 0) := by
  have hrange : BinarySearch.range arr cmpL cmpU =
      (arr.take (BinarySearch.search arr cmpU (BinarySearch.rank arr cmpL + 1)).rank).drop
        (BinarySearch.rank arr cmpL) := rfl
  have hcL : ∀ j, BinarySearch.rank arr cmpL ≤ j → j < arr.length →
      0 ≤ cmpL (arr.getD j default) := by
    unfold BinarySearch.rank
    rcases Bool.eq_false_or_eq_true
        (BinarySearch.search arr cmpL 0).isExactMatch with hex | hne
    · exact fun j hj1 hj2 =>
        (BinarySearch.search_exact_bounds arr cmpL 0 hL hex).2 j hj1 hj2
    · exact fun j hj1 hj2 =>
        le_of_lt ((BinarySearch.search_noexact_spec arr cmpL 0 hL hne).2.1 j hj1 hj2)
  have hcU : ∀ j, BinarySearch.rank arr cmpL + 1 ≤ j →
      j < (BinarySearch.search arr cmpU (BinarySearch.rank arr cmpL + 1)).rank →
      cmpU (arr.getD j default) ≤ 0 := by
    rcases Bool.eq_false_or_eq_true
        (BinarySearch.search arr cmpU (BinarySearch.rank arr cmpL + 1)).isExactMatch
        with hex | hne
    · intro j hj1 hj2
      exact (BinarySearch.search_exact_bounds arr cmpU _ hU hex).1 j (le_of_lt hj2)
    · intro j hj1 hj2
      exact le_of_lt ((BinarySearch.search_noexact_spec arr cmpU _ hU hne).1 j hj1 hj2)
  refine ⟨?_, ?_, ?_⟩
  · rw [hrange]
    refine ⟨(arr.take (BinarySearch.search arr cmpU (BinarySearch.rank arr cmpL + 1)).rank).take
        (BinarySearch.rank arr cmpL),
      arr.drop (BinarySearch.search arr cmpU (BinarySearch.rank arr cmpL + 1)).rank, ?_⟩
    conv_lhs => rw [← List.take_append_drop
        (BinarySearch.search arr cmpU (BinarySearch.rank arr cmpL + 1)).rank arr,
      ← List.take_append_drop (BinarySearch.rank arr cmpL)
        (arr.take (BinarySearch.search arr cmpU (BinarySearch.rank arr cmpL + 1)).rank)]
  · intro x hx
    rw [hrange] at hx
    obtain ⟨m, hm, hxm⟩ := List.mem_iff_getElem.mp hx
    have hm2 := hm
    rw [List.length_drop, List.length_take] at hm2
    have hb1 : BinarySearch.rank arr cmpL + m < (arr.take (BinarySearch.search arr cmpU
        (BinarySearch.rank arr cmpL + 1)).rank).length := by
      rw [List.length_take]; omega
    have hlen2 : BinarySearch.rank arr cmpL + m < arr.length := by omega
    have e1 : ((arr.take (BinarySearch.search arr cmpU
          (BinarySearch.rank arr cmpL + 1)).rank).drop (BinarySearch.rank arr cmpL))[m] =
        (arr.take (BinarySearch.search arr cmpU
          (BinarySearch.rank arr cmpL + 1)).rank)[BinarySearch.rank arr cmpL + m] :=
      List.getElem_drop _
    have e2 : (arr.take (BinarySearch.search arr cmpU
          (BinarySearch.rank arr cmpL + 1)).rank)[BinarySearch.rank arr cmpL + m] =
        arr[BinarySearch.rank arr cmpL + m] := List.getElem_take _
    subst hxm
    rw [e1, e2, ← getD_eq_getElem_of_lt arr _ hlen2]
    exact hcL _ (by omega) hlen2
  · intro x hx
    rw [hrange, List.drop_drop] at hx
    obtain ⟨m, hm, hxm⟩ := List.mem_iff_getElem.mp hx
    have hm2 := hm
    rw [List.length_drop, List.length_take] at hm2
    have hb1 : BinarySearch.rank arr cmpL + 1 + m < (arr.take (BinarySearch.search arr cmpU
        (BinarySearch.rank arr cmpL + 1)).rank).length := by
      rw [List.length_take]; omega
    have hlen2 : BinarySearch.rank arr cmpL + 1 + m < arr.length := by omega
    have e1 : ((arr.take (BinarySearch.search arr cmpU
          (BinarySearch.rank arr cmpL + 1)).rank).drop (BinarySearch.rank arr cmpL + 1))[m] =
        (arr.take (BinarySearch.search arr cmpU
          (BinarySearch.rank arr cmpL + 1)).rank)[BinarySearch.rank arr cmpL + 1 + m] :=
      List.getElem_drop _
    have e2 : (arr.take (BinarySearch.search arr cmpU
          (BinarySearch.rank arr cmpL + 1)).rank)[BinarySearch.rank arr cmpL + 1 + m] =
        arr[BinarySearch.rank arr cmpL + 1 + m] := List.getElem_take _
    subst hxm
    rw [e1, e2, ← getD_eq_getElem_of_lt arr _ hlen2]
    exact hcU _ (by omega) (by omega)

/-- Witness for C4 at concrete comparators describing the block of elements
equal to `3` inside `[1, 3, 5]`. -/
theorem C4_witness :
    BinarySearch.CmpMono [(1 : Int), 3, 5] (fun n => n - 3) ∧
      ((∃ l1 l2, [(1 : Int), 3, 5] =
          l1 ++ BinarySearch.range [(1 : Int), 3, 5] (fun n => n - 3) (fun n => n - 3) ++ l2) ∧
        (∀ x ∈ BinarySearch.range [(1 : Int), 3, 5] (fun n => n - 3) (fun n => n - 3),
          0 ≤ x - 3) ∧
        (∀ x ∈ (BinarySearch.range [(1 : Int), 3, 5] (fun n => n - 3)
            (fun n => n - 3)).drop 1, x - 3 ≤ 0)) :=
  ⟨cmpMono_of_sorted [(1 : Int), 3, 5] 3 (by decide),
    C4_range_spec [(1 : Int), 3, 5] (fun n => n - 3) (fun n => n - 3)
      (cmpMono_of_sorted [(1 : Int), 3, 5] 3 (by decide))
      (cmpMono_of_sorted [(1 : Int), 3, 5] 3 (by decide))⟩

end ClaimC4

structure SuffixArrayNode (T : Type) where
  key : List Char
  items : List T
deriving DecidableEq

instance {T : Type} : Inhabited (SuffixArrayNode T) := ⟨⟨[], []⟩⟩

namespace SuffixArray

variable {T : Type}

/-- Shallow model of the `Intl.Collator().compare` three-way string comparison
used throughout `SuffixArray`: code-point lexicographic order on the
character lists that model JS strings. -/
def strCmp : List Char → List Char → Int
  | [], [] => 0
  | [], _ :: _ => -1
  | _ :: _, [] => 1
  | a :: as, b :: bs =>
    if a.toNat < b.toNat then -1
    else if b.toNat < a.toNat then 1
    else strCmp as bs

/-- Model of JS `String.prototype.toLowerCase` (per-character lowering). -/
def toLowerStr (s : List Char) : List Char := s.map Char.toLower

/-- The mutable state of a `SuffixArray` object: `_nodeArray` plus the
case-sensitivity flag.  The `_suffixDelegate` is passed explicitly to the
operations, and `_binarySearch` is the `BinarySearch` view of `_nodeArray`. -/
structure State (T : Type) where
  nodeArray : List (SuffixArrayNode T)
  caseSensitive : Bool
deriving DecidableEq

/-- Model of `SuffixArray._insertNode(node)` (src/src/types.ts:541-550):
`splice(rank, 0, node)` at the rank found for the node's (raw) key. -/
def insertNode (st : State T) (nd : SuffixArrayNode T) : State T :=
  let r := BinarySearch.rank st.nodeArray (fun n => strCmp nd.key n.key)
  ⟨st.nodeArray.take r ++ nd :: st.nodeArray.drop r, st.caseSensitive⟩

/-- One iteration of the loop in `SuffixArray.add(item)`
(src/src/types.ts:444-460): `_nodeFind` the (case-normalized) key; on a hit,
push the item onto the found node's item list (the node found by `find` is the
one at the search's rank), else insert a fresh node carrying the *raw* key. -/
def addKey (st : State T) (item : T) (k : List Char) : State T :=
  let lcText := if st.caseSensitive then k else toLowerStr k
  let r := BinarySearch.search st.nodeArray (fun n => strCmp lcText n.key) 0
  if r.isExactMatch then
    let nd := st.nodeArray.getD r.rank default
    ⟨st.nodeArray.set r.rank ⟨nd.key, nd.items ++ [item]⟩, st.caseSensitive⟩
  else
    insertNode st ⟨k, [item]⟩

/-- Model of `SuffixArray.add(item)`: one `addKey` per key produced by the delegate. -/
def add (keyFn : T → List (List Char)) (st : State T) (item : T) : State T :=
  (keyFn item).foldl (fun s k => addKey s item k) st

/-- Model of `SuffixArray._deleteNode(node)` (src/src/types.ts:552-563): re-rank the
node's key and `splice(rank, 1)` only when the array really holds that node
there (the JS `===` identity test, modelled structurally). -/
def deleteNode (st : State T) (nd : SuffixArrayNode T) [DecidableEq T] : State T :=
  let r := BinarySearch.rank st.nodeArray (fun n => strCmp nd.key n.key)
  if st.nodeArray[r]? = some nd then ⟨st.nodeArray.eraseIdx r, st.caseSensitive⟩ else st

/-- One iteration of the loop in `SuffixArray.remove(item)`
(src/src/types.ts:468-492): find the node, splice the item out of its item
list when present (`indexOf` ≠ -1), and delete the node if it became empty. -/
def removeKey [DecidableEq T] (st : State T) (item : T) (k : List Char) : State T :=
  let lcText := if st.caseSensitive then k else toLowerStr k
  let r := BinarySearch.search st.nodeArray (fun n => strCmp lcText n.key) 0
  if r.isExactMatch then
    let nd := st.nodeArray.getD r.rank default
    let i := nd.items.indexOf item
    if i < nd.items.length then
      let nd2 : SuffixArrayNode T := ⟨nd.key, nd.items.eraseIdx i⟩
      let s1 : State T := ⟨st.nodeArray.set r.rank nd2, st.caseSensitive⟩
      if nd2.items = [] then deleteNode s1 nd2 else s1
    else st
  else st

/-- Model of `SuffixArray.remove(item)`: one `removeKey` per delegate key. -/
def remove [DecidableEq T] (keyFn : T → List (List Char)) (st : State T) (item : T) :
    State T :=
  (keyFn item).foldl (fun s k => removeKey s item k) st

/-- Model of `SuffixArray._nodeMatch(text)` (src/src/types.ts:514-528): a `range` query
whose lower comparator collates the (case-normalized) query against the node
key and whose upper comparator answers `1` on keys having the query as prefix
and `-1` otherwise (`n.key.slice(0, lcText.length) === lcText`). -/
def nodeMatch (st : State T) (text : List Char) : List (SuffixArrayNode T) :=
  let lcText := if st.caseSensitive then text else toLowerStr text
  BinarySearch.range st.nodeArray
    (fun n => strCmp lcText n.key)
    (fun n => if n.key.take lcText.length = lcText then 1 else -1)

/-- One JS `Set.prototype.add` call: append the value unless it is already
present (a `Set` keeps first-insertion order). -/
def setAdd {A : Type} [DecidableEq A] (acc : List A) (x : A) : List A :=
  if x ∈ acc then acc else acc ++ [x]

/-- Model of `SuffixArray.match(text)` (src/src/types.ts:501-512).  The loop body
`Set.prototype.add.apply(matches, nodes[n].items)` invokes `Set.add` once with
the node's item list as the *argument list*, and `Set.add(value)` consumes only
its first argument, so each matched node contributes exactly its first item —
JS `undefined`, modelled as `none`, when the item list is empty — and every
further item of the node is dropped.  The return value is `Array.from(matches)`:
the set's elements in first-insertion order.
Named `matchText` because `match` is reserved in Lean. -/
def matchText [DecidableEq T] (st : State T) (text : List Char) : List (Option T) :=
  (nodeMatch st text).foldl (fun a nd => setAdd a nd.items.head?) []

/-- Model of `SuffixArray._nodeFind(text)` (src/src/types.ts:530-539). -/
def nodeFind (st : State T) (text : List Char) : Option (SuffixArrayNode T) :=
  let lcText := if st.caseSensitive then text else toLowerStr text
  BinarySearch.find st.nodeArray (fun n => strCmp lcText n.key)

/-- The `_nodeArray` order `_insertNode` maintains: strictly descending keys
(later keys collate strictly before earlier keys).  The binary-search
comparators of this class are nondecreasing along such an array. -/
def Descending (l : List (SuffixArrayNode T)) : Prop :=
  l.Pairwise (fun a b => strCmp b.key a.key < 0)

end SuffixArray



namespace SuffixArray

variable {T : Type}

theorem char_toNat_inj {x y : Char} (h : x.toNat = y.toNat) : x = y := by
  rw [← Char.ofNat_toNat x, ← Char.ofNat_toNat y, h]

theorem strCmp_cases (a : List Char) : ∀ b : List Char,
    strCmp a b = -1 ∨ strCmp a b = 0 ∨ strCmp a b = 1 := by
  induction a with
  | nil => intro b; cases b <;> simp [strCmp]
  | cons x xs ih =>
    intro b
    cases b with
    | nil => simp [strCmp]
    | cons y ys =>
      by_cases h1 : x.toNat < y.toNat
      · simp [strCmp, h1]
      · by_cases h2 : y.toNat < x.toNat
        · simp [strCmp, h1, h2]
        · simpa [strCmp, h1, h2] using ih ys

theorem strCmp_eq_zero_iff (a : List Char) : ∀ b : List Char,
    strCmp a b = 0 ↔ a = b := by
  induction a with
  | nil => intro b; cases b <;> simp [strCmp]
  | cons x xs ih =>
    intro b
    cases b with
    | nil => simp [strCmp]
    | cons y ys =>
      by_cases h1 : x.toNat < y.toNat
      · have hxy : x ≠ y := fun he => by cases he; omega
        simp [strCmp, h1, hxy]
      · by_cases h2 : y.toNat < x.toNat
        · have hxy : x ≠ y := fun he => by cases he; omega
          simp [strCmp, h1, h2, hxy]
        · have hxy : x = y := char_toNat_inj (by omega)
          subst hxy
          simp [strCmp, ih ys]

theorem strCmp_trans_neg (a : List Char) : ∀ b c : List Char,
    strCmp a b < 0 → strCmp b c < 0 → strCmp a c < 0 := by
  induction a with
  | nil =>
    intro b c h1 h2
    cases b with
    | nil => simp [strCmp] at h1
    | cons y ys =>
      cases c with
      | nil => simp [strCmp] at h2
      | cons z zs => simp [strCmp]
  | cons x xs ih =>
    intro b c h1 h2
    cases b with
    | nil => simp [strCmp] at h1
    | cons y ys =>
      cases c with
      | nil => simp [strCmp] at h2
      | cons z zs =>
        by_cases hxy : x.toNat < y.toNat
        · by_cases hyz : y.toNat < z.toNat
          · have hxz : x.toNat < z.toNat := by omega
            simp only [strCmp, if_pos hxz]
            omega
          · by_cases hzy : z.toNat < y.toNat
            · simp only [strCmp, if_neg hyz, if_pos hzy] at h2
              omega
            · have hxz : x.toNat < z.toNat := by omega
              simp only [strCmp, if_pos hxz]
              omega
        · by_cases hyx : y.toNat < x.toNat
          · simp only [strCmp, if_neg hxy, if_pos hyx] at h1
            omega
          · simp only [strCmp, if_neg hxy, if_neg hyx] at h1
            by_cases hyz : y.toNat < z.toNat
            · have hxz : x.toNat < z.toNat := by omega
              simp only [strCmp, if_pos hxz]
              omega
            · by_cases hzy : z.toNat < y.toNat
              · simp only [strCmp, if_neg hyz, if_pos hzy] at h2
                omega
              · simp only [strCmp, if_neg hyz, if_neg hzy] at h2
                have hxz : ¬ x.toNat < z.toNat := by omega
                have hzx : ¬ z.toNat < x.toNat := by omega
                simp only [strCmp, if_neg hxz, if_neg hzx]
                exact ih ys zs h1 h2

theorem strCmp_flip (a : List Char) : ∀ b : List Char, strCmp a b = - strCmp b a := by
  induction a with
  | nil => intro b; cases b <;> simp [strCmp]
  | cons x xs ih =>
    intro b
    cases b with
    | nil => simp [strCmp]
    | cons y ys =>
      by_cases h1 : x.toNat < y.toNat
      · have h2 : ¬ y.toNat < x.toNat := by omega
        simp [strCmp, h1, h2]
      · by_cases h2 : y.toNat < x.toNat
        · simp [strCmp, h1, h2]
        · simp [strCmp, h1, h2, ih ys]

/-- The collation comparator against a fixed query is nondecreasing along a
descending node array: exactly the monotonicity `_search` needs. -/
theorem cmpMono_of_descending (arr : List (SuffixArrayNode T)) (q : List Char)
    (hd : Descending arr) :
    BinarySearch.CmpMono arr (fun n => strCmp q n.key) := by
  intro j hj i hij
  rcases Nat.eq_or_lt_of_le hij with rfl | hlt
  · exact le_rfl
  · have h := List.pairwise_iff_getElem.mp hd i j (by omega) hj hlt
    rw [getD_eq_getElem_of_lt arr i (by omega), getD_eq_getElem_of_lt arr j hj]
    simp only []
    rcases strCmp_cases q arr[j].key with h1 | h1 | h1
    · have h2 : strCmp q arr[i].key < 0 :=
        strCmp_trans_neg q arr[j].key arr[i].key (by omega) h
      rcases strCmp_cases q arr[i].key with h3 | h3 | h3 <;> omega
    · have hq : q = arr[j].key := (strCmp_eq_zero_iff q arr[j].key).mp h1
      have h0 : strCmp arr[j].key arr[j].key = 0 := (strCmp_eq_zero_iff _ _).mpr rfl
      rw [hq]
      omega
    · rcases strCmp_cases q arr[i].key with h3 | h3 | h3 <;> omega

/-- Keys in a descending array are pairwise distinct: positions with equal
keys coincide. -/
theorem descending_key_inj (arr : List (SuffixArrayNode T)) (hd : Descending arr)
    (i j : Nat) (hi : i < arr.length) (hj : j < arr.length)
    (hk : (arr.getD i default).key = (arr.getD j default).key) : i = j := by
  rcases Nat.lt_trichotomy i j with hlt | heq | hgt
  · have h := List.pairwise_iff_getElem.mp hd i j hi hj hlt
    rw [getD_eq_getElem_of_lt arr i hi, getD_eq_getElem_of_lt arr j hj] at hk
    rw [hk, (strCmp_eq_zero_iff _ _).mpr rfl] at h
    omega
  · exact heq
  · have h := List.pairwise_iff_getElem.mp hd j i hj hi hgt
    rw [getD_eq_getElem_of_lt arr i hi, getD_eq_getElem_of_lt arr j hj] at hk
    rw [← hk, (strCmp_eq_zero_iff _ _).mpr rfl] at h
    omega

/-- The bound `left ≤ rank` also at the `_search` level. -/
theorem search_rank_ge' (arr : List (SuffixArrayNode T)) (cmp : SuffixArrayNode T → Int)
    (left : Nat) : left ≤ (BinarySearch.search arr cmp left).rank :=
  BinarySearch.searchGo_rank_ge arr cmp (arr.length + 1) left arr.length

theorem mem_setAdd_left {A : Type} [DecidableEq A] (acc : List A) (y x : A)
    (hx : x ∈ acc) : x ∈ setAdd acc y := by
  unfold setAdd
  split
  · exact hx
  · exact List.mem_append_left _ hx

theorem mem_setAdd_self {A : Type} [DecidableEq A] (acc : List A) (y : A) :
    y ∈ setAdd acc y := by
  unfold setAdd
  split
  · assumption
  · exact List.mem_append_right _ (List.mem_cons_self y [])

theorem mem_matchFold [DecidableEq T] (nodes : List (SuffixArrayNode T)) :
    ∀ acc : List (Option T), ∀ x : Option T, x ∈ acc →
      x ∈ nodes.foldl (fun a nd => setAdd a nd.items.head?) acc := by
  induction nodes with
  | nil => intro acc x hx; exact hx
  | cons n ns ih =>
    intro acc x hx
    exact ih (setAdd acc n.items.head?) x (mem_setAdd_left acc _ x hx)

/-- The first item of any matched node belongs to the `match` result. -/
theorem mem_matchText_of_node [DecidableEq T] (st : State T) (text : List Char)
    (nd : SuffixArrayNode T) (hnd : nd ∈ nodeMatch st text) :
    nd.items.head? ∈ matchText st text := by
  unfold matchText
  obtain ⟨l1, l2, hsplit⟩ := List.append_of_mem hnd
  rw [hsplit, List.foldl_append, List.foldl_cons]
  exact mem_matchFold l2 _ _ (mem_setAdd_self _ _)

/-- The node holding exactly the (case-normalized) query key is always part of
`_nodeMatch`'s range: the lower search lands on it and the upper search starts
one past it, so the slice keeps it. -/
theorem nodeMatch_self (st : State T) (q : List Char)
    (hcs : st.caseSensitive = true) (hd : Descending st.nodeArray)
    (i : Nat) (hi : i < st.nodeArray.length)
    (hkey : (st.nodeArray.getD i default).key = q) :
    st.nodeArray.getD i default ∈ nodeMatch st q := by
  have hmono := cmpMono_of_descending st.nodeArray q hd
  have hz : strCmp q (st.nodeArray.getD i default).key = 0 := by
    rw [hkey]; exact (strCmp_eq_zero_iff q q).mpr rfl
  have hex : (BinarySearch.search st.nodeArray (fun n => strCmp q n.key) 0).isExactMatch
      = true :=
    BinarySearch.search_complete st.nodeArray _ 0 hmono i (Nat.zero_le i) hi hz
  obtain ⟨_, hlt, hz2⟩ := BinarySearch.search_exact_spec st.nodeArray
    (fun n => strCmp q n.key) 0 hex
  have hz2' : strCmp q ((st.nodeArray.getD
      (BinarySearch.search st.nodeArray (fun n => strCmp q n.key) 0).rank default)).key
      = 0 := hz2
  have hkeyr : ((st.nodeArray.getD
      (BinarySearch.search st.nodeArray (fun n => strCmp q n.key) 0).rank default)).key
      = q := ((strCmp_eq_zero_iff _ _).mp hz2').symm
  have hri : (BinarySearch.search st.nodeArray (fun n => strCmp q n.key) 0).rank = i :=
    descending_key_inj st.nodeArray hd _ i hlt hi (by rw [hkeyr, hkey])
  have hnm : nodeMatch st q = BinarySearch.range st.nodeArray
      (fun n => strCmp q n.key)
      (fun n => if n.key.take q.length = q then 1 else -1) := by
    unfold nodeMatch
    rw [hcs]
    rfl
  rw [hnm]
  have hrange : BinarySearch.range st.nodeArray
      (fun n => strCmp q n.key)
      (fun n => if n.key.take q.length = q then 1 else -1) =
      (st.nodeArray.take (BinarySearch.search st.nodeArray
        (fun n => if n.key.take q.length = q then 1 else -1)
        (BinarySearch.rank st.nodeArray (fun n => strCmp q n.key) + 1)).rank).drop
        (BinarySearch.rank st.nodeArray (fun n => strCmp q n.key)) := rfl
  rw [hrange]
  have hrL : BinarySearch.rank st.nodeArray (fun n => strCmp q n.key) = i := hri
  have hrU : BinarySearch.rank st.nodeArray (fun n => strCmp q n.key) + 1 ≤
      (BinarySearch.search st.nodeArray
        (fun n => if n.key.take q.length = q then 1 else -1)
        (BinarySearch.rank st.nodeArray (fun n => strCmp q n.key) + 1)).rank :=
    search_rank_ge' st.nodeArray _ _
  rw [hrL] at hrU ⊢
  have hitake : i < (st.nodeArray.take (BinarySearch.search st.nodeArray
      (fun n => if n.key.take q.length = q then 1 else -1) (i + 1)).rank).length := by
    rw [List.length_take]
    omega
  have hmem := mem_drop_of_le (st.nodeArray.take (BinarySearch.search st.nodeArray
      (fun n => if n.key.take q.length = q then 1 else -1) (i + 1)).rank) i i le_rfl hitake
  have heq : (st.nodeArray.take (BinarySearch.search st.nodeArray
      (fun n => if n.key.take q.length = q then 1 else -1) (i + 1)).rank)[i] =
      st.nodeArray[i] := List.getElem_take _
  rw [heq] at hmem
  rw [getD_eq_getElem_of_lt st.nodeArray i hi]
  exact hmem

/-- Replacing a node by one with the same key keeps the array descending. -/
theorem descending_set (arr : List (SuffixArrayNode T)) (i : Nat)
    (nd' : SuffixArrayNode T) (hi : i < arr.length)
    (hk : nd'.key = (arr.getD i default).key) (hd : Descending arr) :
    Descending (arr.set i nd') := by
  rw [getD_eq_getElem_of_lt arr i hi] at hk
  unfold Descending at hd ⊢
  rw [List.pairwise_iff_getElem] at hd ⊢
  intro a b ha hb hab
  rw [List.length_set] at ha hb
  rw [List.getElem_set, List.getElem_set]
  split
  · split
    · omega
    · next hia hib =>
      subst hia
      rw [hk]
      exact hd a i ha hb hab
  · split
    · next hib hia =>
      subst hia
      rw [hk]
      exact hd i b ha hb hab
    · exact hd a b ha hb hab

/-- Splicing a node in at an insertion point that all earlier keys collate
after and all later keys collate before keeps the array descending. -/
theorem descending_splice (arr : List (SuffixArrayNode T)) (nd : SuffixArrayNode T)
    (r : Nat) (hr : r ≤ arr.length) (hd : Descending arr)
    (hbefore : ∀ j, j < r → strCmp nd.key (arr.getD j default).key < 0)
    (hafter : ∀ j, r ≤ j → j < arr.length → 0 < strCmp nd.key (arr.getD j default).key) :
    Descending (arr.take r ++ nd :: arr.drop r) := by
  unfold Descending
  rw [List.pairwise_append, List.pairwise_cons]
  refine ⟨List.Pairwise.sublist (List.take_sublist r arr) hd, ⟨?_, ?_⟩, ?_⟩
  · intro b hb
    obtain ⟨m, hm, hbm⟩ := List.mem_iff_getElem.mp hb
    have hlen : r + m < arr.length := by
      rw [List.length_drop] at hm; omega
    have e := @List.getElem_drop _ arr r m hm
    subst hbm
    rw [e]
    have := hafter (r + m) (by omega) hlen
    rw [getD_eq_getElem_of_lt arr (r + m) hlen] at this
    rw [strCmp_flip]
    omega
  · exact List.Pairwise.sublist (List.drop_sublist r arr) hd
  · intro a ha b hb
    obtain ⟨m, hm, ham⟩ := List.mem_iff_getElem.mp ha
    have hmr : m < r := by rw [List.length_take] at hm; omega
    have hml : m < arr.length := by rw [List.length_take] at hm; omega
    have ea : (arr.take r)[m] = arr[m] := List.getElem_take arr
    rcases List.mem_cons.mp hb with rfl | hbd
    · subst ham
      rw [ea]
      have := hbefore m hmr
      rw [getD_eq_getElem_of_lt arr m hml] at this
      exact this
    · obtain ⟨m2, hm2, hbm2⟩ := List.mem_iff_getElem.mp hbd
      have hlen2 : r + m2 < arr.length := by
        rw [List.length_drop] at hm2; omega
      have eb := @List.getElem_drop _ arr r m2 hm2
      subst ham hbm2
      rw [ea, eb]
      exact List.pairwise_iff_getElem.mp hd m (r + m2) hml hlen2 (by omega)

end SuffixArray

section SpliceHelpers

variable {β : Type} [Inhabited β]

theorem getD_set_self (l : List β) (i : Nat) (x : β) (hi : i < l.length) :
    (l.set i x).getD i default = x := by
  rw [List.getD_eq_getElem?_getD, List.getElem?_set_self hi]
  rfl

theorem getD_set_ne (l : List β) (i j : Nat) (x : β) (h : i ≠ j) :
    (l.set i x).getD j default = l.getD j default := by
  rw [List.getD_eq_getElem?_getD, List.getD_eq_getElem?_getD, List.getElem?_set_ne h]

omit [Inhabited β] in
theorem length_splice (l : List β) (r : Nat) (x : β) (hr : r ≤ l.length) :
    (l.take r ++ x :: l.drop r).length = l.length + 1 := by
  rw [List.length_append, List.length_take, List.length_cons, List.length_drop]
  omega

theorem getD_splice_self (l : List β) (r : Nat) (x : β) (hr : r ≤ l.length) :
    (l.take r ++ x :: l.drop r).getD r default = x := by
  rw [List.getD_eq_getElem?_getD,
    List.getElem?_append_right (by rw [List.length_take]; omega)]
  rw [List.length_take, show r - min r l.length = 0 from by omega,
    List.getElem?_cons_zero]
  rfl

theorem getD_splice_lt (l : List β) (r : Nat) (x : β) (j : Nat) (hj : j < r)
    (hr : r ≤ l.length) :
    (l.take r ++ x :: l.drop r).getD j default = l.getD j default := by
  rw [List.getD_eq_getElem?_getD, List.getD_eq_getElem?_getD,
    List.getElem?_append_left (by rw [List.length_take]; omega),
    List.getElem?_take_of_lt hj]

theorem getD_splice_gt (l : List β) (r : Nat) (x : β) (j : Nat) (hj : r ≤ j)
    (hr : r ≤ l.length) :
    (l.take r ++ x :: l.drop r).getD (j + 1) default = l.getD j default := by
  rw [List.getD_eq_getElem?_getD, List.getD_eq_getElem?_getD,
    List.getElem?_append_right (by rw [List.length_take]; omega)]
  rw [List.length_take, show j + 1 - min r l.length = (j - r) + 1 from by omega,
    List.getElem?_cons_succ, List.getElem?_drop, show r + (j - r) = j from by omega]

end SpliceHelpers

namespace SuffixArray

variable {T : Type}

/-- In case-sensitive mode `addKey` reduces to a search with the raw key. -/
theorem addKey_cs_eq (st : State T) (item : T) (k : List Char)
    (hcs : st.caseSensitive = true) :
    addKey st item k =
      if (BinarySearch.search st.nodeArray (fun n => strCmp k n.key) 0).isExactMatch then
        ⟨st.nodeArray.set
            (BinarySearch.search st.nodeArray (fun n => strCmp k n.key) 0).rank
            ⟨(st.nodeArray.getD
                (BinarySearch.search st.nodeArray (fun n => strCmp k n.key) 0).rank
                default).key,
              (st.nodeArray.getD
                (BinarySearch.search st.nodeArray (fun n => strCmp k n.key) 0).rank
                default).items ++ [item]⟩,
          st.caseSensitive⟩
      else insertNode st ⟨k, [item]⟩ := by
  unfold addKey
  rw [hcs]
  rfl

/-- Everything `addKey` guarantees in case-sensitive mode on a descending
array: the flag and the order are preserved, the processed key's node now
carries the item, and any previously present (key, item) pair survives. -/
theorem addKey_spec (st : State T) (item : T) (k : List Char)
    (hcs : st.caseSensitive = true) (hd : Descending st.nodeArray) :
    (addKey st item k).caseSensitive = true ∧
    Descending (addKey st item k).nodeArray ∧
    (∃ j, ∃ _h : j < (addKey st item k).nodeArray.length,
      ((addKey st item k).nodeArray.getD j default).key = k ∧
      item ∈ ((addKey st item k).nodeArray.getD j default).items) ∧
    (∀ k0 x, (∃ j, ∃ _h : j < st.nodeArray.length,
        (st.nodeArray.getD j default).key = k0 ∧
        x ∈ (st.nodeArray.getD j default).items) →
      (∃ j, ∃ _h : j < (addKey st item k).nodeArray.length,
        ((addKey st item k).nodeArray.getD j default).key = k0 ∧
        x ∈ ((addKey st item k).nodeArray.getD j default).items)) := by
  rw [addKey_cs_eq st item k hcs]
  by_cases hex : (BinarySearch.search st.nodeArray
      (fun n => strCmp k n.key) 0).isExactMatch = true
  · rw [if_pos hex]
    obtain ⟨_, hlt, hz⟩ := BinarySearch.search_exact_spec st.nodeArray
      (fun n => strCmp k n.key) 0 hex
    have hz' : strCmp k (st.nodeArray.getD
        (BinarySearch.search st.nodeArray (fun n => strCmp k n.key) 0).rank default).key
        = 0 := hz
    have hk : (st.nodeArray.getD
        (BinarySearch.search st.nodeArray (fun n => strCmp k n.key) 0).rank default).key
        = k := ((strCmp_eq_zero_iff _ _).mp hz').symm
    refine ⟨hcs, ?_, ?_, ?_⟩
    · exact descending_set st.nodeArray _ _ hlt rfl hd
    · refine ⟨(BinarySearch.search st.nodeArray (fun n => strCmp k n.key) 0).rank,
        ⟨by rw [List.length_set]; exact hlt, ?_, ?_⟩⟩
      · rw [getD_set_self _ _ _ hlt]
        exact hk
      · rw [getD_set_self _ _ _ hlt]
        exact List.mem_append_right _ (List.mem_cons_self item [])
    · rintro k0 x ⟨j, hj, hkey, hx⟩
      by_cases hjr : j = (BinarySearch.search st.nodeArray (fun n => strCmp k n.key) 0).rank
      · rw [hjr] at hkey hx
        refine ⟨(BinarySearch.search st.nodeArray (fun n => strCmp k n.key) 0).rank,
          ⟨by rw [List.length_set]; exact hlt, ?_, ?_⟩⟩
        · rw [getD_set_self _ _ _ hlt]
          exact hkey
        · rw [getD_set_self _ _ _ hlt]
          exact List.mem_append_left _ hx
      · refine ⟨j, ⟨by rw [List.length_set]; exact hj, ?_, ?_⟩⟩
        · rw [getD_set_ne _ _ _ _ (fun he => hjr he.symm)]
          exact hkey
        · rw [getD_set_ne _ _ _ _ (fun he => hjr he.symm)]
          exact hx
  · rw [if_neg hex]
    have hne : (BinarySearch.search st.nodeArray
        (fun n => strCmp k n.key) 0).isExactMatch = false := by
      rcases Bool.eq_false_or_eq_true (BinarySearch.search st.nodeArray
        (fun n => strCmp k n.key) 0).isExactMatch with h | h
      · exact absurd h hex
      · exact h
    have hmono := cmpMono_of_descending st.nodeArray k hd
    obtain ⟨hbef, haft, _, hrle⟩ := BinarySearch.search_noexact_spec st.nodeArray
      (fun n => strCmp k n.key) 0 hmono hne
    have hinsert : insertNode st ⟨k, [item]⟩ = (⟨st.nodeArray.take
        (BinarySearch.search st.nodeArray (fun n => strCmp k n.key) 0).rank ++
        (⟨k, [item]⟩ : SuffixArrayNode T) :: st.nodeArray.drop
        (BinarySearch.search st.nodeArray (fun n => strCmp k n.key) 0).rank,
        st.caseSensitive⟩ : State T) := rfl
    rw [hinsert]
    have hrlen : (BinarySearch.search st.nodeArray (fun n => strCmp k n.key) 0).rank ≤
        st.nodeArray.length := by omega
    refine ⟨hcs, ?_, ?_, ?_⟩
    · exact descending_splice st.nodeArray ⟨k, [item]⟩ _ hrlen hd
        (fun j hj => hbef j (Nat.zero_le j) hj)
        (fun j hj1 hj2 => haft j hj1 hj2)
    · refine ⟨(BinarySearch.search st.nodeArray (fun n => strCmp k n.key) 0).rank,
        ⟨?_, ?_, ?_⟩⟩
      · rw [length_splice _ _ _ hrlen]; omega
      · rw [getD_splice_self _ _ _ hrlen]
      · rw [getD_splice_self _ _ _ hrlen]
        exact List.mem_cons_self item []
    · rintro k0 x ⟨j, hj, hkey, hx⟩
      by_cases hjr : j < (BinarySearch.search st.nodeArray (fun n => strCmp k n.key) 0).rank
      · refine ⟨j, ⟨?_, ?_, ?_⟩⟩
        · rw [length_splice _ _ _ hrlen]; omega
        · rw [getD_splice_lt _ _ _ _ hjr hrlen]; exact hkey
        · rw [getD_splice_lt _ _ _ _ hjr hrlen]; exact hx
      · refine ⟨j + 1, ⟨?_, ?_, ?_⟩⟩
        · rw [length_splice _ _ _ hrlen]; omega
        · rw [getD_splice_gt _ _ _ _ (by omega) hrlen]; exact hkey
        · rw [getD_splice_gt _ _ _ _ (by omega) hrlen]; exact hx

/-- Folding `addKey` over a key list preserves the flag, the order, and every
(key, item) pair already present, and makes every processed key's node carry
the added item. -/
theorem addKeys_spec (item : T) : ∀ (ks : List (List Char)) (st : State T),
    st.caseSensitive = true → Descending st.nodeArray →
    (ks.foldl (fun s k => addKey s item k) st).caseSensitive = true ∧
    Descending (ks.foldl (fun s k => addKey s item k) st).nodeArray ∧
    (∀ k0 x, (∃ j, ∃ _h : j < st.nodeArray.length,
        (st.nodeArray.getD j default).key = k0 ∧
        x ∈ (st.nodeArray.getD j default).items) →
      (∃ j, ∃ _h : j < (ks.foldl (fun s k => addKey s item k) st).nodeArray.length,
        ((ks.foldl (fun s k => addKey s item k) st).nodeArray.getD j default).key = k0 ∧
        x ∈ ((ks.foldl (fun s k => addKey s item k) st).nodeArray.getD j default).items)) ∧
    (∀ k ∈ ks, ∃ j, ∃ _h : j <
        (ks.foldl (fun s k => addKey s item k) st).nodeArray.length,
      ((ks.foldl (fun s k => addKey s item k) st).nodeArray.getD j default).key = k ∧
      item ∈ ((ks.foldl (fun s k => addKey s item k) st).nodeArray.getD j default).items) := by
  intro ks
  induction ks with
  | nil =>
    intro st hcs hd
    exact ⟨hcs, hd, fun k0 x h => h, fun k hk => absurd hk (List.not_mem_nil k)⟩
  | cons k ks ih =>
    intro st hcs hd
    obtain ⟨hcs1, hd1, hnew, hpres⟩ := addKey_spec st item k hcs hd
    obtain ⟨hcs2, hd2, hpres2, hall2⟩ := ih (addKey st item k) hcs1 hd1
    rw [List.foldl_cons]
    refine ⟨hcs2, hd2, ?_, ?_⟩
    · exact fun k0 x h => hpres2 k0 x (hpres k0 x h)
    · intro k0 hk0
      rcases List.mem_cons.mp hk0 with rfl | hk0s
      · obtain ⟨j, hj, hkey, hitem⟩ := hnew
        exact hpres2 k0 item ⟨j, hj, hkey, hitem⟩
      · exact hall2 k0 hk0s

end SuffixArray

section EraseHelpers

variable {β : Type}

/-- A member of `l.eraseIdx r` sits in `l` at some index other than `r`. -/
theorem mem_eraseIdx_imp (l : List β) (r : Nat) (x : β) (hx : x ∈ l.eraseIdx r) :
    ∃ j, ∃ _h : j < l.length, j ≠ r ∧ l[j] = x := by
  obtain ⟨m, hm, hmx⟩ := List.mem_iff_getElem.mp hx
  by_cases hmr : m < r
  · have h2 : l[m]? = some x := by
      rw [← List.getElem?_eraseIdx_of_lt l r m hmr, List.getElem?_eq_getElem hm, hmx]
    obtain ⟨hlt, he⟩ := List.getElem?_eq_some_iff.mp h2
    exact ⟨m, hlt, by omega, he⟩
  · have h2 : l[m + 1]? = some x := by
      rw [← List.getElem?_eraseIdx_of_ge l r m (by omega), List.getElem?_eq_getElem hm, hmx]
    obtain ⟨hlt, he⟩ := List.getElem?_eq_some_iff.mp h2
    exact ⟨m + 1, hlt, by omega, he⟩

/-- A member of `l.set r v` is `v` or sits in `l` at some index other than `r`. -/
theorem mem_set_imp (l : List β) (r : Nat) (v x : β) (hx : x ∈ l.set r v) :
    x = v ∨ ∃ j, ∃ _h : j < l.length, j ≠ r ∧ l[j] = x := by
  obtain ⟨m, hm, hmx⟩ := List.mem_iff_getElem.mp hx
  rw [List.length_set] at hm
  rw [List.getElem_set] at hmx
  split at hmx
  · exact Or.inl hmx.symm
  · next hne => exact Or.inr ⟨m, hm, fun he => hne he.symm, hmx⟩

/-- Erasing the element found by `indexOf` lowers its count by one. -/
theorem count_eraseIdx_indexOf [DecidableEq β] (a : β) : ∀ l : List β, a ∈ l →
    (l.eraseIdx (l.indexOf a)).count a = l.count a - 1 := by
  intro l
  induction l with
  | nil => intro h; cases h
  | cons b tl ih =>
    intro hmem
    by_cases hba : b = a
    · subst hba
      rw [List.indexOf_cons_self]
      simp [List.eraseIdx]
    · rw [List.indexOf_cons_ne tl hba]
      have hat : a ∈ tl := by
        rcases List.mem_cons.mp hmem with he | h
        · exact absurd he.symm hba
        · exact h
      show (b :: tl.eraseIdx (tl.indexOf a)).count a = (b :: tl).count a - 1
      rw [List.count_cons_of_ne (fun he => hba he.symm),
        List.count_cons_of_ne (fun he => hba he.symm)]
      exact ih hat

end EraseHelpers

namespace SuffixArray

variable {T : Type}

/-- On a descending array, `_deleteNode` really erases the node it is handed:
the re-ranked search lands exactly on the node's position. -/
theorem deleteNode_spec [DecidableEq T] (st : State T) (nd : SuffixArrayNode T)
    (hd : Descending st.nodeArray) (i : Nat) (hi : i < st.nodeArray.length)
    (hnd : st.nodeArray.getD i default = nd) :
    deleteNode st nd = ⟨st.nodeArray.eraseIdx i, st.caseSensitive⟩ := by
  have hmono := cmpMono_of_descending st.nodeArray nd.key hd
  have hz : strCmp nd.key (st.nodeArray.getD i default).key = 0 := by
    rw [hnd]; exact (strCmp_eq_zero_iff _ _).mpr rfl
  have hex := BinarySearch.search_complete st.nodeArray _ 0 hmono i (Nat.zero_le i) hi hz
  obtain ⟨_, hlt, hz2⟩ := BinarySearch.search_exact_spec st.nodeArray
    (fun n => strCmp nd.key n.key) 0 hex
  have hz2' : strCmp nd.key (st.nodeArray.getD
      (BinarySearch.search st.nodeArray (fun n => strCmp nd.key n.key) 0).rank
      default).key = 0 := hz2
  have hkeyr : (st.nodeArray.getD
      (BinarySearch.search st.nodeArray (fun n => strCmp nd.key n.key) 0).rank
      default).key = nd.key := ((strCmp_eq_zero_iff _ _).mp hz2').symm
  have hri : (BinarySearch.search st.nodeArray (fun n => strCmp nd.key n.key) 0).rank = i :=
    descending_key_inj st.nodeArray hd _ i hlt hi (by rw [hkeyr, hnd])
  have hrank : BinarySearch.rank st.nodeArray (fun n => strCmp nd.key n.key) = i := hri
  unfold deleteNode
  rw [hrank]
  show (if st.nodeArray[i]? = some nd then
      (⟨st.nodeArray.eraseIdx i, st.caseSensitive⟩ : State T) else st) =
    ⟨st.nodeArray.eraseIdx i, st.caseSensitive⟩
  have hcond : st.nodeArray[i]? = some nd := by
    rw [List.getElem?_eq_getElem hi, ← getD_eq_getElem_of_lt st.nodeArray i hi, hnd]
  rw [if_pos hcond]

/-- Everything one `remove` loop iteration guarantees in case-sensitive mode:
flag, order, per-node item multiplicity and non-emptiness are preserved, the
processed key's node no longer holds the item, and nodes still holding the
item descend from nodes of the input state with the same key. -/
theorem removeKey_spec [DecidableEq T] (st : State T) (item : T) (k : List Char)
    (hcs : st.caseSensitive = true) (hd : Descending st.nodeArray)
    (hcnt : ∀ nd ∈ st.nodeArray, nd.items.count item ≤ 1)
    (hne0 : ∀ nd ∈ st.nodeArray, nd.items ≠ []) :
    (removeKey st item k).caseSensitive = true ∧
    Descending (removeKey st item k).nodeArray ∧
    (∀ nd ∈ (removeKey st item k).nodeArray, nd.items.count item ≤ 1) ∧
    (∀ nd ∈ (removeKey st item k).nodeArray, nd.items ≠ []) ∧
    (∀ nd ∈ (removeKey st item k).nodeArray, item ∈ nd.items → nd.key ≠ k) ∧
    (∀ nd ∈ (removeKey st item k).nodeArray, item ∈ nd.items →
      ∃ nd0 ∈ st.nodeArray, nd0.key = nd.key ∧ item ∈ nd0.items) := by
  have hcseq : (if st.caseSensitive = true then k else toLowerStr k) = k := by
    simp [hcs]
  simp only [removeKey, hcseq]
  split
  case isTrue hex =>
    obtain ⟨_, hlt, hz⟩ := BinarySearch.search_exact_spec st.nodeArray
      (fun n => strCmp k n.key) 0 hex
    have hz' : strCmp k (st.nodeArray.getD
        (BinarySearch.search st.nodeArray (fun n => strCmp k n.key) 0).rank
        default).key = 0 := hz
    have hkeyr : (st.nodeArray.getD
        (BinarySearch.search st.nodeArray (fun n => strCmp k n.key) 0).rank
        default).key = k := ((strCmp_eq_zero_iff _ _).mp hz').symm
    have hndmem : st.nodeArray.getD
        (BinarySearch.search st.nodeArray (fun n => strCmp k n.key) 0).rank default
        ∈ st.nodeArray := by
      rw [getD_eq_getElem_of_lt st.nodeArray _ hlt]
      exact List.getElem_mem hlt
    have huniq : ∀ nd' ∈ st.nodeArray, nd'.key = k →
        nd' = st.nodeArray.getD
          (BinarySearch.search st.nodeArray (fun n => strCmp k n.key) 0).rank default := by
      intro nd' hmem' hkey'
      obtain ⟨j, hj, hje⟩ := List.mem_iff_getElem.mp hmem'
      have hjr : j = (BinarySearch.search st.nodeArray (fun n => strCmp k n.key) 0).rank :=
        descending_key_inj st.nodeArray hd j _ hj hlt
          (by rw [getD_eq_getElem_of_lt _ j hj, hje, hkey', hkeyr])
      subst hjr
      rw [getD_eq_getElem_of_lt _ _ hlt]
      exact hje.symm
    split
    case isTrue hidx =>
      have hmem : item ∈ (st.nodeArray.getD
          (BinarySearch.search st.nodeArray (fun n => strCmp k n.key) 0).rank
          default).items := List.indexOf_lt_length.mp hidx
      have hcount0 : ((st.nodeArray.getD
          (BinarySearch.search st.nodeArray (fun n => strCmp k n.key) 0).rank
          default).items.eraseIdx ((st.nodeArray.getD
          (BinarySearch.search st.nodeArray (fun n => strCmp k n.key) 0).rank
          default).items.indexOf item)).count item = 0 := by
        have h1 := count_eraseIdx_indexOf item _ hmem
        have h2 := hcnt _ hndmem
        omega
      have hnotmem2 : item ∉ (st.nodeArray.getD
          (BinarySearch.search st.nodeArray (fun n => strCmp k n.key) 0).rank
          default).items.eraseIdx ((st.nodeArray.getD
          (BinarySearch.search st.nodeArray (fun n => strCmp k n.key) 0).rank
          default).items.indexOf item) :=
        List.not_mem_of_count_eq_zero hcount0
      have hs1d : Descending (st.nodeArray.set
          (BinarySearch.search st.nodeArray (fun n => strCmp k n.key) 0).rank
          ⟨(st.nodeArray.getD
              (BinarySearch.search st.nodeArray (fun n => strCmp k n.key) 0).rank
              default).key,
            (st.nodeArray.getD
              (BinarySearch.search st.nodeArray (fun n => strCmp k n.key) 0).rank
              default).items.eraseIdx ((st.nodeArray.getD
              (BinarySearch.search st.nodeArray (fun n => strCmp k n.key) 0).rank
              default).items.indexOf item)⟩) :=
        descending_set st.nodeArray _ _ hlt rfl hd
      have hgd : (st.nodeArray.set
          (BinarySearch.search st.nodeArray (fun n => strCmp k n.key) 0).rank
          ⟨(st.nodeArray.getD
              (BinarySearch.search st.nodeArray (fun n => strCmp k n.key) 0).rank
              default).key,
            (st.nodeArray.getD
              (BinarySearch.search st.nodeArray (fun n => strCmp k n.key) 0).rank
              default).items.eraseIdx ((st.nodeArray.getD
              (BinarySearch.search st.nodeArray (fun n => strCmp k n.key) 0).rank
              default).items.indexOf item)⟩).getD
          (BinarySearch.search st.nodeArray (fun n => strCmp k n.key) 0).rank default =
          ⟨(st.nodeArray.getD
              (BinarySearch.search st.nodeArray (fun n => strCmp k n.key) 0).rank
              default).key,
            (st.nodeArray.getD
              (BinarySearch.search st.nodeArray (fun n => strCmp k n.key) 0).rank
              default).items.eraseIdx ((st.nodeArray.getD
              (BinarySearch.search st.nodeArray (fun n => strCmp k n.key) 0).rank
              default).items.indexOf item)⟩ :=
        getD_set_self _ _ _ hlt
      -- members of the set array are the new node or untouched old nodes
      have hset_imp : ∀ nd' ∈ st.nodeArray.set
          (BinarySearch.search st.nodeArray (fun n => strCmp k n.key) 0).rank
          ⟨(st.nodeArray.getD
              (BinarySearch.search st.nodeArray (fun n => strCmp k n.key) 0).rank
              default).key,
            (st.nodeArray.getD
              (BinarySearch.search st.nodeArray (fun n => strCmp k n.key) 0).rank
              default).items.eraseIdx ((st.nodeArray.getD
              (BinarySearch.search st.nodeArray (fun n => strCmp k n.key) 0).rank
              default).items.indexOf item)⟩,
          nd' = ⟨(st.nodeArray.getD
              (BinarySearch.search st.nodeArray (fun n => strCmp k n.key) 0).rank
              default).key,
            (st.nodeArray.getD
              (BinarySearch.search st.nodeArray (fun n => strCmp k n.key) 0).rank
              default).items.eraseIdx ((st.nodeArray.getD
              (BinarySearch.search st.nodeArray (fun n => strCmp k n.key) 0).rank
              default).items.indexOf item)⟩ ∨
          (∃ j, ∃ _h : j < st.nodeArray.length,
            j ≠ (BinarySearch.search st.nodeArray (fun n => strCmp k n.key) 0).rank ∧
            st.nodeArray[j] = nd') :=
        fun nd' hnd' => mem_set_imp _ _ _ _ hnd'
      split
      case isTrue hempty =>
        rw [deleteNode_spec _ _ hs1d
          (BinarySearch.search st.nodeArray (fun n => strCmp k n.key) 0).rank
          (by rw [List.length_set]; exact hlt) hgd]
        have herase_imp : ∀ nd' ∈ (st.nodeArray.set
            (BinarySearch.search st.nodeArray (fun n => strCmp k n.key) 0).rank
            ⟨(st.nodeArray.getD
                (BinarySearch.search st.nodeArray (fun n => strCmp k n.key) 0).rank
                default).key,
              (st.nodeArray.getD
                (BinarySearch.search st.nodeArray (fun n => strCmp k n.key) 0).rank
                default).items.eraseIdx ((st.nodeArray.getD
                (BinarySearch.search st.nodeArray (fun n => strCmp k n.key) 0).rank
                default).items.indexOf item)⟩).eraseIdx
            (BinarySearch.search st.nodeArray (fun n => strCmp k n.key) 0).rank,
            ∃ j, ∃ _h : j < st.nodeArray.length,
              j ≠ (BinarySearch.search st.nodeArray (fun n => strCmp k n.key) 0).rank ∧
              st.nodeArray[j] = nd' := by
          intro nd' hnd'
          obtain ⟨j, hj, hjr, hje⟩ := mem_eraseIdx_imp _ _ nd' hnd'
          rw [List.length_set] at hj
          rw [List.getElem_set, if_neg (fun he => hjr he.symm)] at hje
          exact ⟨j, hj, hjr, hje⟩
        refine ⟨hcs, ?_, ?_, ?_, ?_, ?_⟩
        · exact List.Pairwise.sublist (List.eraseIdx_sublist _ _) hs1d
        · intro nd' hnd'
          obtain ⟨j, hj, hjr, hje⟩ := herase_imp nd' hnd'
          rw [← hje]
          exact hcnt _ (List.getElem_mem hj)
        · intro nd' hnd'
          obtain ⟨j, hj, hjr, hje⟩ := herase_imp nd' hnd'
          rw [← hje]
          exact hne0 _ (List.getElem_mem hj)
        · intro nd' hnd' hit hkey'
          obtain ⟨j, hj, hjr, hje⟩ := herase_imp nd' hnd'
          have := huniq nd' (by rw [← hje]; exact List.getElem_mem hj) hkey'
          have hj2 : st.nodeArray.getD j default = st.nodeArray.getD
              (BinarySearch.search st.nodeArray (fun n => strCmp k n.key) 0).rank
              default := by
            rw [getD_eq_getElem_of_lt _ j hj, hje, this]
          exact hjr (descending_key_inj st.nodeArray hd j _ hj hlt (by rw [hj2]))
        · intro nd' hnd' hit
          obtain ⟨j, hj, hjr, hje⟩ := herase_imp nd' hnd'
          exact ⟨nd', by rw [← hje]; exact List.getElem_mem hj, rfl, hit⟩
      case isFalse hempty =>
        refine ⟨hcs, hs1d, ?_, ?_, ?_, ?_⟩
        · intro nd' hnd'
          rcases hset_imp nd' hnd' with he | ⟨j, hj, hjr, hje⟩
          · rw [he]
            simp only []
            omega
          · rw [← hje]
            exact hcnt _ (List.getElem_mem hj)
        · intro nd' hnd'
          rcases hset_imp nd' hnd' with he | ⟨j, hj, hjr, hje⟩
          · rw [he]
            exact hempty
          · rw [← hje]
            exact hne0 _ (List.getElem_mem hj)
        · intro nd' hnd' hit hkey'
          rcases hset_imp nd' hnd' with he | ⟨j, hj, hjr, hje⟩
          · rw [he] at hit
            exact hnotmem2 hit
          · have := huniq nd' (by rw [← hje]; exact List.getElem_mem hj) hkey'
            have hj2 : st.nodeArray.getD j default = st.nodeArray.getD
                (BinarySearch.search st.nodeArray (fun n => strCmp k n.key) 0).rank
                default := by
              rw [getD_eq_getElem_of_lt _ j hj, hje, this]
            exact hjr (descending_key_inj st.nodeArray hd j _ hj hlt (by rw [hj2]))
        · intro nd' hnd' hit
          rcases hset_imp nd' hnd' with he | ⟨j, hj, hjr, hje⟩
          · rw [he] at hit
            exact absurd hit hnotmem2
          · exact ⟨nd', by rw [← hje]; exact List.getElem_mem hj, rfl, hit⟩
    case isFalse hidx =>
      have hnotmem : item ∉ (st.nodeArray.getD
          (BinarySearch.search st.nodeArray (fun n => strCmp k n.key) 0).rank
          default).items := fun hmem => hidx (List.indexOf_lt_length.mpr hmem)
      refine ⟨hcs, hd, hcnt, hne0, ?_, ?_⟩
      · intro nd' hnd' hit hkey'
        have := huniq nd' hnd' hkey'
        rw [this] at hit
        exact hnotmem hit
      · intro nd' hnd' hit
        exact ⟨nd', hnd', rfl, hit⟩
  case isFalse hex =>
    have hne : (BinarySearch.search st.nodeArray
        (fun n => strCmp k n.key) 0).isExactMatch = false := by
      rcases Bool.eq_false_or_eq_true (BinarySearch.search st.nodeArray
        (fun n => strCmp k n.key) 0).isExactMatch with h | h
      · exact absurd h hex
      · exact h
    have hmono := cmpMono_of_descending st.nodeArray k hd
    refine ⟨hcs, hd, hcnt, hne0, ?_, ?_⟩
    · intro nd' hnd' hit hkey'
      obtain ⟨j, hj, hje⟩ := List.mem_iff_getElem.mp hnd'
      have hz : strCmp k (st.nodeArray.getD j default).key = 0 := by
        rw [getD_eq_getElem_of_lt _ j hj, hje, hkey']
        exact (strCmp_eq_zero_iff _ _).mpr rfl
      have := BinarySearch.search_complete st.nodeArray
        (fun n => strCmp k n.key) 0 hmono j (Nat.zero_le j) hj hz
      rw [this] at hne
      cases hne
    · intro nd' hnd' hit
      exact ⟨nd', hnd', rfl, hit⟩

/-- Folding `removeKey` over a key list covering every key still holding the
item leaves a state where no node holds the item and no node is empty. -/
theorem removeKeys_spec [DecidableEq T] (item : T) : ∀ (ks : List (List Char)) (st : State T),
    st.caseSensitive = true → Descending st.nodeArray →
    (∀ nd ∈ st.nodeArray, nd.items.count item ≤ 1) →
    (∀ nd ∈ st.nodeArray, nd.items ≠ []) →
    (∀ nd ∈ st.nodeArray, item ∈ nd.items → nd.key ∈ ks) →
    (∀ nd ∈ (ks.foldl (fun s k => removeKey s item k) st).nodeArray, item ∉ nd.items) ∧
    (∀ nd ∈ (ks.foldl (fun s k => removeKey s item k) st).nodeArray, nd.items ≠ []) := by
  intro ks
  induction ks with
  | nil =>
    intro st _ _ _ hne hinv
    exact ⟨fun nd hnd hit => absurd (hinv nd hnd hit) (List.not_mem_nil _), hne⟩
  | cons k ks ih =>
    intro st hcs hd hcnt hne hinv
    obtain ⟨h1, h2, h3, h4, h5, h6⟩ := removeKey_spec st item k hcs hd hcnt hne
    rw [List.foldl_cons]
    apply ih (removeKey st item k) h1 h2 h3 h4
    intro nd hnd hit
    obtain ⟨nd0, hnd0, hkey0, hit0⟩ := h6 nd hnd hit
    rcases List.mem_cons.mp (hinv nd0 hnd0 hit0) with he | hm
    · exact absurd (hkey0 ▸ he) (h5 nd hnd hit)
    · exact hkey0 ▸ hm

/-- Every node present after `addKey` carries either the processed key or a
key already present before. -/
theorem addKey_keys (st : State T) (item : T) (k : List Char)
    (hcs : st.caseSensitive = true)
    (nd : SuffixArrayNode T) (hnd : nd ∈ (addKey st item k).nodeArray) :
    nd.key = k ∨ ∃ nd0 ∈ st.nodeArray, nd.key = nd0.key := by
  rw [addKey_cs_eq st item k hcs] at hnd
  by_cases hex : (BinarySearch.search st.nodeArray
      (fun n => strCmp k n.key) 0).isExactMatch = true
  · rw [if_pos hex] at hnd
    obtain ⟨_, hlt, _⟩ := BinarySearch.search_exact_spec st.nodeArray
      (fun n => strCmp k n.key) 0 hex
    rcases mem_set_imp _ _ _ _ hnd with he | ⟨j, hj, _, hje⟩
    · right
      refine ⟨st.nodeArray.getD
        (BinarySearch.search st.nodeArray (fun n => strCmp k n.key) 0).rank default,
        ?_, ?_⟩
      · rw [getD_eq_getElem_of_lt _ _ hlt]
        exact List.getElem_mem _
      · rw [he]
    · right
      refine ⟨nd, ?_, rfl⟩
      rw [← hje]
      exact List.getElem_mem _
  · rw [if_neg hex] at hnd
    have hmem : nd ∈ st.nodeArray.take
        (BinarySearch.search st.nodeArray (fun n => strCmp k n.key) 0).rank ++
        (⟨k, [item]⟩ : SuffixArrayNode T) :: st.nodeArray.drop
        (BinarySearch.search st.nodeArray (fun n => strCmp k n.key) 0).rank := hnd
    rcases List.mem_append.mp hmem with h1 | h2
    · exact Or.inr ⟨nd, List.take_subset _ _ h1, rfl⟩
    · rcases List.mem_cons.mp h2 with he | h3
      · left
        rw [he]
      · exact Or.inr ⟨nd, List.drop_subset _ _ h3, rfl⟩

/-- Freshness of a key is preserved by `addKey` on any other key. -/
theorem addKey_fresh (st : State T) (item : T) (k q : List Char)
    (hcs : st.caseSensitive = true) (hkq : k ≠ q)
    (hfr : ∀ nd ∈ st.nodeArray, nd.key ≠ q) :
    ∀ nd ∈ (addKey st item k).nodeArray, nd.key ≠ q := by
  intro nd hnd
  rcases addKey_keys st item k hcs nd hnd with he | ⟨nd0, hnd0, he⟩
  · rw [he]
    exact hkq
  · rw [he]
    exact hfr nd0 hnd0

/-- A node with a given key and first item keeps both through `addKey`:
pushing onto the node appends after the first item, and a splice elsewhere
only shifts its index. -/
theorem addKey_head_preserved (st : State T) (item : T) (k q : List Char) (a : T)
    (hcs : st.caseSensitive = true) (hd : Descending st.nodeArray)
    (hex0 : ∃ i, ∃ _h : i < st.nodeArray.length,
      (st.nodeArray.getD i default).key = q ∧
      (st.nodeArray.getD i default).items.head? = some a) :
    ∃ i, ∃ _h : i < (addKey st item k).nodeArray.length,
      ((addKey st item k).nodeArray.getD i default).key = q ∧
      ((addKey st item k).nodeArray.getD i default).items.head? = some a := by
  obtain ⟨i, hi, hkey, hhead⟩ := hex0
  rw [addKey_cs_eq st item k hcs]
  by_cases hex : (BinarySearch.search st.nodeArray
      (fun n => strCmp k n.key) 0).isExactMatch = true
  · rw [if_pos hex]
    obtain ⟨_, hlt, _⟩ := BinarySearch.search_exact_spec st.nodeArray
      (fun n => strCmp k n.key) 0 hex
    by_cases hir : i = (BinarySearch.search st.nodeArray (fun n => strCmp k n.key) 0).rank
    · subst hir
      refine ⟨(BinarySearch.search st.nodeArray (fun n => strCmp k n.key) 0).rank,
        by rw [List.length_set]; exact hlt, ?_, ?_⟩
      · rw [getD_set_self _ _ _ hlt]
        exact hkey
      · rw [getD_set_self _ _ _ hlt]
        show ((st.nodeArray.getD
          (BinarySearch.search st.nodeArray (fun n => strCmp k n.key) 0).rank
          default).items ++ [item]).head? = some a
        cases hit : (st.nodeArray.getD
          (BinarySearch.search st.nodeArray (fun n => strCmp k n.key) 0).rank
          default).items with
        | nil =>
          rw [hit, List.head?_nil] at hhead
          cases hhead
        | cons b bs =>
          rw [List.cons_append, List.head?_cons]
          rw [hit, List.head?_cons] at hhead
          exact hhead
    · refine ⟨i, by rw [List.length_set]; exact hi, ?_, ?_⟩
      · rw [getD_set_ne _ _ _ _ (fun he => hir he.symm)]
        exact hkey
      · rw [getD_set_ne _ _ _ _ (fun he => hir he.symm)]
        exact hhead
  · rw [if_neg hex]
    have hne : (BinarySearch.search st.nodeArray
        (fun n => strCmp k n.key) 0).isExactMatch = false := by
      rcases Bool.eq_false_or_eq_true (BinarySearch.search st.nodeArray
        (fun n => strCmp k n.key) 0).isExactMatch with h | h
      · exact absurd h hex
      · exact h
    have hmono := cmpMono_of_descending st.nodeArray k hd
    obtain ⟨_, _, _, hrle⟩ := BinarySearch.search_noexact_spec st.nodeArray
      (fun n => strCmp k n.key) 0 hmono hne
    have hrlen : (BinarySearch.search st.nodeArray (fun n => strCmp k n.key) 0).rank ≤
        st.nodeArray.length := by omega
    have hinsert : insertNode st (⟨k, [item]⟩ : SuffixArrayNode T) = (⟨st.nodeArray.take
        (BinarySearch.search st.nodeArray (fun n => strCmp k n.key) 0).rank ++
        (⟨k, [item]⟩ : SuffixArrayNode T) :: st.nodeArray.drop
        (BinarySearch.search st.nodeArray (fun n => strCmp k n.key) 0).rank,
        st.caseSensitive⟩ : State T) := rfl
    rw [hinsert]
    by_cases hir : i < (BinarySearch.search st.nodeArray (fun n => strCmp k n.key) 0).rank
    · refine ⟨i, ?_, ?_, ?_⟩
      · rw [length_splice _ _ _ hrlen]
        omega
      · rw [getD_splice_lt _ _ _ _ hir hrlen]
        exact hkey
      · rw [getD_splice_lt _ _ _ _ hir hrlen]
        exact hhead
    · refine ⟨i + 1, ?_, ?_, ?_⟩
      · rw [length_splice _ _ _ hrlen]
        omega
      · rw [getD_splice_gt _ _ _ _ (by omega) hrlen]
        exact hkey
      · rw [getD_splice_gt _ _ _ _ (by omega) hrlen]
        exact hhead

/-- Folding `addKey` over a key list keeps a node's key and first item. -/
theorem addKeys_head_preserved (item : T) (q : List Char) (a : T) :
    ∀ (ks : List (List Char)) (st : State T),
    st.caseSensitive = true → Descending st.nodeArray →
    (∃ i, ∃ _h : i < st.nodeArray.length,
      (st.nodeArray.getD i default).key = q ∧
      (st.nodeArray.getD i default).items.head? = some a) →
    ∃ i, ∃ _h : i < (ks.foldl (fun s k => addKey s item k) st).nodeArray.length,
      (((ks.foldl (fun s k => addKey s item k) st).nodeArray.getD i default)).key = q ∧
      (((ks.foldl (fun s k => addKey s item k) st).nodeArray.getD i
        default)).items.head? = some a := by
  intro ks
  induction ks with
  | nil => intro st _ _ h; exact h
  | cons k ks ih =>
    intro st hcs hd h
    obtain ⟨hcs1, hd1, _, _⟩ := addKey_spec st item k hcs hd
    rw [List.foldl_cons]
    exact ih (addKey st item k) hcs1 hd1 (addKey_head_preserved st item k q a hcs hd h)

/-- When no node yet carries the key, `addKey` with that key misses and so
`_insertNode`s a fresh node whose one — hence first — item is the added item. -/
theorem addKey_creates (st : State T) (item : T) (q : List Char)
    (hcs : st.caseSensitive = true) (hd : Descending st.nodeArray)
    (hfr : ∀ nd ∈ st.nodeArray, nd.key ≠ q) :
    ∃ i, ∃ _h : i < (addKey st item q).nodeArray.length,
      ((addKey st item q).nodeArray.getD i default).key = q ∧
      ((addKey st item q).nodeArray.getD i default).items.head? = some item := by
  rw [addKey_cs_eq st item q hcs]
  by_cases hex : (BinarySearch.search st.nodeArray
      (fun n => strCmp q n.key) 0).isExactMatch = true
  · exfalso
    obtain ⟨_, hlt, hz⟩ := BinarySearch.search_exact_spec st.nodeArray
      (fun n => strCmp q n.key) 0 hex
    have hz' : strCmp q (st.nodeArray.getD
        (BinarySearch.search st.nodeArray (fun n => strCmp q n.key) 0).rank default).key
        = 0 := hz
    have hkeq : (st.nodeArray.getD
        (BinarySearch.search st.nodeArray (fun n => strCmp q n.key) 0).rank default).key
        = q := ((strCmp_eq_zero_iff _ _).mp hz').symm
    refine hfr _ ?_ hkeq
    rw [getD_eq_getElem_of_lt _ _ hlt]
    exact List.getElem_mem _
  · rw [if_neg hex]
    have hne : (BinarySearch.search st.nodeArray
        (fun n => strCmp q n.key) 0).isExactMatch = false := by
      rcases Bool.eq_false_or_eq_true (BinarySearch.search st.nodeArray
        (fun n => strCmp q n.key) 0).isExactMatch with h | h
      · exact absurd h hex
      · exact h
    have hmono := cmpMono_of_descending st.nodeArray q hd
    obtain ⟨_, _, _, hrle⟩ := BinarySearch.search_noexact_spec st.nodeArray
      (fun n => strCmp q n.key) 0 hmono hne
    have hrlen : (BinarySearch.search st.nodeArray (fun n => strCmp q n.key) 0).rank ≤
        st.nodeArray.length := by omega
    have hinsert : insertNode st (⟨q, [item]⟩ : SuffixArrayNode T) = (⟨st.nodeArray.take
        (BinarySearch.search st.nodeArray (fun n => strCmp q n.key) 0).rank ++
        (⟨q, [item]⟩ : SuffixArrayNode T) :: st.nodeArray.drop
        (BinarySearch.search st.nodeArray (fun n => strCmp q n.key) 0).rank,
        st.caseSensitive⟩ : State T) := rfl
    rw [hinsert]
    refine ⟨(BinarySearch.search st.nodeArray (fun n => strCmp q n.key) 0).rank,
      ?_, ?_, ?_⟩
    · rw [length_splice _ _ _ hrlen]
      omega
    · rw [getD_splice_self _ _ _ hrlen]
    · rw [getD_splice_self _ _ _ hrlen]
      rfl

/-- Folding `addKey` over a key list containing a key no node of the start
state carries produces a node keyed by it whose first item is the added item. -/
theorem addKeys_first_item (item : T) (q : List Char) :
    ∀ (ks : List (List Char)) (st : State T),
    st.caseSensitive = true → Descending st.nodeArray →
    q ∈ ks → (∀ nd ∈ st.nodeArray, nd.key ≠ q) →
    ∃ i, ∃ _h : i < (ks.foldl (fun s k => addKey s item k) st).nodeArray.length,
      (((ks.foldl (fun s k => addKey s item k) st).nodeArray.getD i default)).key = q ∧
      (((ks.foldl (fun s k => addKey s item k) st).nodeArray.getD i
        default)).items.head? = some item := by
  intro ks
  induction ks with
  | nil =>
    intro st _ _ hq _
    exact absurd hq (List.not_mem_nil q)
  | cons k ks ih =>
    intro st hcs hd hq hfr
    obtain ⟨hcs1, hd1, _, _⟩ := addKey_spec st item k hcs hd
    rw [List.foldl_cons]
    by_cases hkq : k = q
    · subst hkq
      exact addKeys_head_preserved item k item ks (addKey st item k) hcs1 hd1
        (addKey_creates st item k hcs hd hfr)
    · rcases List.mem_cons.mp hq with he | hq2
      · exact absurd he.symm hkq
      · exact ih (addKey st item k) hcs1 hd1 hq2 (addKey_fresh st item k q hcs hkq hfr)

end SuffixArray

section ClaimC3

/-- C3 counterexample.  First conjunct pair: one item is added,
case-sensitively, under the single key "fn".  The query "f" is a proper prefix
of that key (witnessed by `['f'] ++ ['n'] = ['f', 'n']`), yet `match` returns
nothing: the lower search walks past the only node (the collator sends "f"
before "fn"), the resulting slice is empty, and the item is lost.  The claim
requires the item to be returned for *every* prefix of a key.  Last conjunct:
even an *exact*-key query loses items — after adding items 1 and 2 under the
same key "k", `match("k")` returns only `[some 1]`, because each matched node
contributes just its first item (`Set.add` is applied once with the item list
as the argument list), so item 2 is never returned. -/
theorem C3_counterexample :
    (SuffixArray.matchText (SuffixArray.add (fun _ : Nat => [['f', 'n']]) ⟨[], true⟩ 1)
        ['f'] = [] ∧
      ['f'] ++ ['n'] = ['f', 'n']) ∧
    SuffixArray.matchText
        (SuffixArray.add (fun _ : Nat => [['k']])
          (SuffixArray.add (fun _ : Nat => [['k']]) ⟨[], true⟩ 1) 2) ['k'] = [some 1] := by
  decide

/-- C3, amended.  In case-sensitive mode, for an item added to a suffix index
whose node array is descending-ordered (the order `add` itself maintains) and
holds no node yet carrying the key `q`, `match(q)` returns the item for every
query `q` *equal to* one of the item's generated keys: the item becomes — and
stays — the first item of `q`'s node, the only item of a node that `match`
ever returns.  A query that is only a proper prefix of a key is not guaranteed
to match, an item added under a key some node already carries is never
returned (each matched node contributes only its first item; see the
counterexample for both), and in case-insensitive mode even exact-key queries
can fail because stored keys are not lower-cased at insertion — only queries
are. -/
theorem C3_match_first_item {T : Type} [DecidableEq T] (keyFn : T → List (List Char))
    (st : SuffixArray.State T) (item : T) (q : List Char)
    (hcs : st.caseSensitive = true) (hd : SuffixArray.Descending st.nodeArray)
    (hq : q ∈ keyFn item) (hfr : ∀ nd ∈ st.nodeArray, nd.key ≠ q) :
    some item ∈ SuffixArray.matchText (SuffixArray.add keyFn st item) q := by
  obtain ⟨i, hi, hkey, hhead⟩ := SuffixArray.addKeys_first_item item q (keyFn item) st
    hcs hd hq hfr
  obtain ⟨hcs2, hd2, _, _⟩ := SuffixArray.addKeys_spec item (keyFn item) st hcs hd
  have hm := SuffixArray.mem_matchText_of_node (SuffixArray.add keyFn st item) q _
    (SuffixArray.nodeMatch_self _ q hcs2 hd2 i hi hkey)
  rw [hhead] at hm
  exact hm

/-- Witness for C3's amended theorem at a concrete index. -/
theorem C3_witness :
    (⟨[], true⟩ : SuffixArray.State Nat).caseSensitive = true ∧
    SuffixArray.Descending (⟨[], true⟩ : SuffixArray.State Nat).nodeArray ∧
    ['a'] ∈ (fun _ : Nat => [['a'], ['b', 'a']]) 5 ∧
    (∀ nd ∈ (⟨[], true⟩ : SuffixArray.State Nat).nodeArray, nd.key ≠ ['a']) ∧
    some 5 ∈ SuffixArray.matchText
      (SuffixArray.add (fun _ : Nat => [['a'], ['b', 'a']]) ⟨[], true⟩ 5) ['a'] :=
  ⟨rfl, List.Pairwise.nil, by decide,
    fun nd hnd => absurd hnd (List.not_mem_nil nd),
    C3_match_first_item (fun _ : Nat => [['a'], ['b', 'a']]) ⟨[], true⟩ 5 ['a']
      rfl List.Pairwise.nil (by decide) (fun nd hnd => absurd hnd (List.not_mem_nil nd))⟩

end ClaimC3

section ClaimC5

/-- C5 counterexample.  In case-insensitive mode the claim fails: `add` hands
`_insertNode` the raw-cased suffix, so the key "Fn" is stored with its
original casing (second conjunct: its lower-casing differs), while `remove`'s
`_nodeFind` lower-cases the probe to "fn", which never compares equal to "Fn".
The node is not found (`continue`), nothing is spliced out, and after
`remove(1)` the removed item is still indexed under "Fn". -/
theorem C5_counterexample :
    (SuffixArray.remove (fun _ : Nat => [['F', 'n']])
        (SuffixArray.add (fun _ : Nat => [['F', 'n']]) ⟨[], false⟩ 1) 1).nodeArray =
      [⟨['F', 'n'], [1]⟩] ∧
    SuffixArray.toLowerStr ['F', 'n'] = ['f', 'n'] := by
  decide

/-- C5, amended.  In case-sensitive mode, on a consistently built index
state — the node array descending (as `add` maintains), each node holding the
item at most once and never empty, and the item sitting only under its
generated keys — `remove(item)` removes the item from the item list of every
key it was indexed under, and every key whose item list became empty is
deleted: no node of the resulting state holds the item, and no node is left
empty (so no deleted key can contribute to any later `match`).  In
case-insensitive mode this fails for keys containing upper-case letters (see
the counterexample): stored keys keep their original casing while lookup
probes are lower-cased, so the node is never found and the item stays. -/
theorem C5_remove_spec {T : Type} [DecidableEq T] (keyFn : T → List (List Char))
    (st : SuffixArray.State T) (item : T)
    (hcs : st.caseSensitive = true) (hd : SuffixArray.Descending st.nodeArray)
    (hcnt : ∀ nd ∈ st.nodeArray, nd.items.count item ≤ 1)
    (hne : ∀ nd ∈ st.nodeArray, nd.items ≠ [])
    (hcons : ∀ nd ∈ st.nodeArray, item ∈ nd.items → nd.key ∈ keyFn item) :
    (∀ nd ∈ (SuffixArray.remove keyFn st item).nodeArray, item ∉ nd.items) ∧
    (∀ nd ∈ (SuffixArray.remove keyFn st item).nodeArray, nd.items ≠ []) :=
  SuffixArray.removeKeys_spec item (keyFn item) st hcs hd hcnt hne hcons

/-- Witness for C5 at a concrete two-key index holding one item. -/
theorem C5_witness :
    (∀ nd ∈ (SuffixArray.remove (fun _ : Nat => [['a'], ['b']])
        (⟨[⟨['b'], [1]⟩, ⟨['a'], [1]⟩], true⟩ : SuffixArray.State Nat) 1).nodeArray,
      1 ∉ nd.items) ∧
    (∀ nd ∈ (SuffixArray.remove (fun _ : Nat => [['a'], ['b']])
        (⟨[⟨['b'], [1]⟩, ⟨['a'], [1]⟩], true⟩ : SuffixArray.State Nat) 1).nodeArray,
      nd.items ≠ []) :=
  C5_remove_spec (fun _ : Nat => [['a'], ['b']])
    (⟨[⟨['b'], [1]⟩, ⟨['a'], [1]⟩], true⟩ : SuffixArray.State Nat) 1 rfl
    (by constructor
        · intro b hb
          simp only [List.mem_singleton] at hb
          subst hb
          decide
        · exact List.pairwise_singleton _ _)
    (by decide) (by decide) (by decide)

end ClaimC5

/-- The generic `Tree<T>` container (src/src/types.ts:100-244): a value and an
owned ordered list of children.  The non-owning `parent` back-reference is
modelled by passing the parent explicitly where an operation consults it. -/
inductive TreeL (T : Type) where
  | node : T → List (TreeL T) → TreeL T

def TreeL.val {T : Type} : TreeL T → T
  | .node v _ => v

def TreeL.children {T : Type} : TreeL T → List (TreeL T)
  | .node _ cs => cs

mutual
def TreeL.beq {T : Type} [DecidableEq T] : TreeL T → TreeL T → Bool
  | .node a as, .node b bs => decide (a = b) && TreeL.beqList as bs
def TreeL.beqList {T : Type} [DecidableEq T] : List (TreeL T) → List (TreeL T) → Bool
  | [], [] => true
  | _ :: _, [] => false
  | [], _ :: _ => false
  | x :: xs, y :: ys => TreeL.beq x y && TreeL.beqList xs ys
end

mutual
theorem TreeL.beq_iff {T : Type} [DecidableEq T] : ∀ a b : TreeL T,
    TreeL.beq a b = true ↔ a = b
  | .node a as, .node b bs => by
    simp only [TreeL.beq, Bool.and_eq_true, decide_eq_true_eq]
    constructor
    · rintro ⟨rfl, h2⟩
      rw [(TreeL.beqList_iff as bs).mp h2]
    · intro h
      injection h with h1 h2
      subst h1
      subst h2
      exact ⟨rfl, (TreeL.beqList_iff as as).mpr rfl⟩
theorem TreeL.beqList_iff {T : Type} [DecidableEq T] : ∀ as bs : List (TreeL T),
    TreeL.beqList as bs = true ↔ as = bs
  | [], [] => by simp [TreeL.beqList]
  | _ :: _, [] => by simp [TreeL.beqList]
  | [], _ :: _ => by simp [TreeL.beqList]
  | x :: xs, y :: ys => by
    simp only [TreeL.beqList, Bool.and_eq_true]
    rw [TreeL.beq_iff x y, TreeL.beqList_iff xs ys]
    constructor
    · rintro ⟨rfl, rfl⟩
      rfl
    · intro h
      injection h with h1 h2
      exact ⟨h1, h2⟩
end

instance {T : Type} [DecidableEq T] : DecidableEq (TreeL T) := fun a b =>
  decidable_of_iff (TreeL.beq a b = true) (TreeL.beq_iff a b)

mutual
def TreeL.size {T : Type} : TreeL T → Nat
  | .node _ cs => TreeL.sizeList cs + 1
def TreeL.sizeList {T : Type} : List (TreeL T) → Nat
  | [] => 0
  | x :: xs => TreeL.size x + TreeL.sizeList xs
end

/-- A `TreeVisitor<T>` (src/src/types.ts:56-63).  `haltTraverse?: Event<null>`
is the visitor's cancellation signal; a `Bool` models whether it has been
raised (`Tree.traverse` never consults it, as the theorems below show).
`preOrder`/`inOrder`/`postOrder` are the optional callbacks; state threading
replaces JS object mutation, so `preOrder` returns the new state together
with its should-descend answer.  `inOrder` is declared by the interface but
never invoked by `Tree.traverse`. -/
structure Visitor (σ T : Type) where
  haltTraverse : Bool
  preOrder : Option (σ → TreeL T → σ × Bool)
  inOrder : Option (σ → TreeL T → Nat → σ)
  postOrder : Option (σ → TreeL T → σ)

/-- Model of `Tree.traverse(visitor)` (src/src/types.ts:181-201): `descend` starts
`false` and is only set by a present `preOrder`; children are visited
left-to-right when `children.length && descend`; a present `postOrder` runs
last.  `fuel` only makes the recursion structural; `traverse` passes
`TreeL.size t`, which strictly dominates the recursion depth. -/
def traverseGo {σ T : Type} (v : Visitor σ T) : Nat → TreeL T → σ → σ
  | 0, _, s => s
  | fuel + 1, t, s =>
    let pd := match v.preOrder with
      | some f => f s t
      | none => (s, false)
    let s2 := if t.children.length ≠ 0 ∧ pd.2 = true then
        t.children.foldl (fun acc c => traverseGo v fuel c acc) pd.1
      else pd.1
    match v.postOrder with
    | some g => g s2 t
    | none => s2

def traverse {σ T : Type} (v : Visitor σ T) (t : TreeL T) (s : σ) : σ :=
  traverseGo v (TreeL.size t) t s

/-- Model of `Tree.previousSibling()` (src/src/types.ts:223-230), with the `parent`
back-reference passed explicitly.  Note the source returns
`parent.children[i]` — the node itself — not `children[i - 1]`. -/
def previousSibling {T : Type} [DecidableEq T] (parent : Option (TreeL T))
    (self : TreeL T) : Option (TreeL T) :=
  match parent with
  | none => none
  | some p =>
    let i := p.children.indexOf self
    if 0 < i then p.children[i]? else none

/-- Model of `MultiVisitor.shouldDescend(t)` (src/src/types.ts:339-358) over the
`_visitors` list of `[component, markerNode]` pairs: inactive entries (marker
set) are skipped, an active component answering `true` sets the composite
answer, a declining one gets marked inactive at `t`.  Components are modelled
by their should-descend predicate. -/
def MultiVisitor.shouldDescend {T : Type}
    (vs : List ((TreeL T → Bool) × Option (TreeL T))) (t : TreeL T) :
    List ((TreeL T → Bool) × Option (TreeL T)) × Bool :=
  vs.foldl (fun acc v =>
    if v.2.isSome then (acc.1 ++ [v], acc.2)
    else if v.1 t then (acc.1 ++ [v], true)
    else (acc.1 ++ [(v.1, some t)], acc.2)) ([], false)

/-- The state of `MultiVisitor._visitors`: the field is declared
(src/src/types.ts:294) but never assigned by the constructor, so it starts
out `undefined` — modelled by `Option` with `none` for undefined. -/
structure MultiVisitorState (V : Type) where
  visitors : Option (List V)

/-- The field state right after `new MultiVisitor(...)` starts running. -/
def MultiVisitor.new {V : Type} : MultiVisitorState V := ⟨none⟩

/-- Model of `MultiVisitor.add(v)` (src/src/types.ts:302-304):
`this._visitors.push([v, null])`; a `push` on an undefined field throws a
`TypeError`, modelled as `Except.error`. -/
def MultiVisitor.add {V : Type} (st : MultiVisitorState V) (v : V) :
    Except Unit (MultiVisitorState V) :=
  match st.visitors with
  | none => .error ()
  | some l => .ok ⟨some (l ++ [v])⟩

/-- The `MultiVisitor` constructor (src/src/types.ts:296-300): `this.add` on
each element of the argument list, short-circuiting on the first throw. -/
def MultiVisitor.construct {V : Type} (vs : List V) :
    Except Unit (MultiVisitorState V) :=
  vs.foldlM (fun st v => MultiVisitor.add st v) MultiVisitor.new

section ClaimC6

/-- C6 counterexample.  A visitor with only a `postOrder` callback (collecting
visited values) omits `preOrder`; on the two-node tree `0 → [1]` only the
root's `postOrder` fires — the descendant `1` is never visited — because
`descend` is initialized to `false` and only a present `preOrder` can set it.
The claim requires every descendant to be visited. -/
theorem C6_counterexample :
    traverse (⟨false, none, none, some (fun s t => s ++ [t.val])⟩ :
        Visitor (List Nat) Nat) (TreeL.node 0 [TreeL.node 1 []]) [] = [0] ∧
      (1 : Nat) ∉ traverse (⟨false, none, none, some (fun s t => s ++ [t.val])⟩ :
        Visitor (List Nat) Nat) (TreeL.node 0 [TreeL.node 1 []]) [] := by
  decide

/-- C6, amended.  Omitting `preOrder` is equivalent to *declining* descent,
not to descending unconditionally: `Tree.traverse` initializes `descend` to
`false`, so a visitor without `preOrder` never visits any descendant — the
traversal reduces to running `postOrder` (when present) on the root alone. -/
theorem C6_no_pre_no_descend {σ T : Type} (v : Visitor σ T) (t : TreeL T) (s : σ)
    (h : v.preOrder = none) :
    traverse v t s = match v.postOrder with
      | some g => g s t
      | none => s := by
  cases t with
  | node val cs =>
    show traverseGo v (TreeL.sizeList cs + 1) (TreeL.node val cs) s = _
    cases hpost : v.postOrder with
    | none => simp [traverseGo, h, hpost, TreeL.children]
    | some g => simp [traverseGo, h, hpost, TreeL.children]

/-- Witness for C6's amended theorem at a concrete visitor and tree. -/
theorem C6_witness :
    (⟨false, none, none, some (fun s _ => s + 1)⟩ : Visitor Nat Nat).preOrder = none ∧
    traverse (⟨false, none, none, some (fun s _ => s + 1)⟩ : Visitor Nat Nat)
        (TreeL.node 0 [TreeL.node 1 []]) 0 =
      match (⟨false, none, none, some (fun s _ => s + 1)⟩ :
          Visitor Nat Nat).postOrder with
        | some g => g 0 (TreeL.node 0 [TreeL.node 1 []])
        | none => 0 :=
  ⟨rfl, C6_no_pre_no_descend (⟨false, none, none, some (fun s _ => s + 1)⟩ :
    Visitor Nat Nat) (TreeL.node 0 [TreeL.node 1 []]) 0 rfl⟩

end ClaimC6

section ClaimC7

/-- C7 counterexample.  A visitor whose cancellation signal has already been
raised (`haltTraverse = true`) still gets its `preOrder` callback on every
node of the tree `0 → [1]` (`[0, 1]` is collected): `Tree.traverse` never
consults `haltTraverse`, so raising the signal does not stop the traversal,
contradicting "no visitor callback fires after the signal is raised". -/
theorem C7_counterexample :
    (⟨true, some (fun s t => (s ++ [t.val], true)), none, none⟩ :
        Visitor (List Nat) Nat).haltTraverse = true ∧
    traverse (⟨true, some (fun s t => (s ++ [t.val], true)), none, none⟩ :
        Visitor (List Nat) Nat) (TreeL.node 0 [TreeL.node 1 []]) [] = [0, 1] := by
  decide

/-- Traversal results do not depend on the visitor's `preOrder`/`postOrder`
environment beyond those two callbacks. -/
theorem traverseGo_pre_post {σ T : Type} (v w : Visitor σ T)
    (hp : v.preOrder = w.preOrder) (hq : v.postOrder = w.postOrder) :
    ∀ (fuel : Nat) (t : TreeL T) (s : σ),
      traverseGo v fuel t s = traverseGo w fuel t s := by
  intro fuel
  induction fuel with
  | zero => intro t s; rfl
  | succ n ih =>
    intro t s
    have hfold : ∀ (cs : List (TreeL T)) (acc : σ),
        cs.foldl (fun acc c => traverseGo v n c acc) acc =
        cs.foldl (fun acc c => traverseGo w n c acc) acc := by
      intro cs
      induction cs with
      | nil => intro acc; rfl
      | cons c cs2 ih2 =>
        intro acc
        simp only [List.foldl_cons, ih c acc, ih2]
    simp only [traverseGo, hp, hq, hfold]

/-- C7, amended.  `Tree.traverse` implements no cancellation at all: the
`haltTraverse` signal declared on `TreeVisitor` is never consulted, so the
traversal result is the same whatever the signal's state, and remaining
nodes keep being visited after it is raised (see the counterexample). -/
theorem C7_halt_ignored {σ T : Type} (v : Visitor σ T) (b b' : Bool)
    (t : TreeL T) (s : σ) :
    traverse (Visitor.mk b v.preOrder v.inOrder v.postOrder) t s =
      traverse (Visitor.mk b' v.preOrder v.inOrder v.postOrder) t s := by
  unfold traverse
  exact traverseGo_pre_post
    (Visitor.mk b v.preOrder v.inOrder v.postOrder)
    (Visitor.mk b' v.preOrder v.inOrder v.postOrder) rfl rfl (TreeL.size t) t s

end ClaimC7

section ClaimC8

theorem shouldDescend_go {T : Type} (t : TreeL T) :
    ∀ (vs : List ((TreeL T → Bool) × Option (TreeL T)))
      (acc : List ((TreeL T → Bool) × Option (TreeL T))) (b : Bool),
      (vs.foldl (fun acc v =>
        if v.2.isSome then (acc.1 ++ [v], acc.2)
        else if v.1 t then (acc.1 ++ [v], true)
        else (acc.1 ++ [(v.1, some t)], acc.2)) (acc, b)).2 =
      (b || vs.any (fun v => v.2.isNone && v.1 t)) := by
  intro vs
  induction vs with
  | nil =>
    intro acc b
    simp
  | cons v vs ih =>
    intro acc b
    rcases hm : v.2 with _ | tm
    · by_cases hv : v.1 t = true
      · simp [hm, hv, ih]
      · have hv2 : v.1 t = false := by
          revert hv
          cases v.1 t <;> simp
        simp [hm, hv2, ih]
    · simp [hm, ih]

/-- C8.  At every node, the composite visitor's should-descend answer is the
logical OR of the answers of exactly the components still active there (those
with no marker set): one active component answering `true` forces descent
even when every other component declines. -/
theorem C8_shouldDescend_or {T : Type}
    (vs : List ((TreeL T → Bool) × Option (TreeL T))) (t : TreeL T) :
    (MultiVisitor.shouldDescend vs t).2 =
      vs.any (fun v => v.2.isNone && v.1 t) := by
  have h := shouldDescend_go t vs [] false
  simpa [MultiVisitor.shouldDescend] using h

end ClaimC8

section ClaimC9

/-- C9.  `MultiVisitor._visitors` is never initialized, so the constructor's
`this.add(...)` (a `push` on `undefined`) throws for every non-empty visitor
list, and even constructing with the default empty list yields an object
whose `add` throws: the error branch is reachable at the public interface
before any traversal can run. -/
theorem C9_construct_throws (V : Type) :
    MultiVisitor.construct ([] : List V) = .ok MultiVisitor.new ∧
    (∀ v : V, MultiVisitor.add MultiVisitor.new v = .error ()) ∧
    (∀ vs : List V, vs ≠ [] → MultiVisitor.construct vs = .error ()) := by
  refine ⟨rfl, fun v => rfl, ?_⟩
  intro vs hne
  cases vs with
  | nil => exact absurd rfl hne
  | cons v tl => rfl

/-- Witness for C9 at a concrete one-element visitor list. -/
theorem C9_witness :
    ([()] : List Unit) ≠ [] ∧
      MultiVisitor.construct ([()] : List Unit) = .error () :=
  ⟨by decide, (C9_construct_throws Unit).2.2 [()] (by decide)⟩

end ClaimC9

section ClaimC10

/-- C10.  `previousSibling` returns `null` when the node has no parent or is
its parent's first child; for a node at child index `i > 0` it returns
`parent.children[i]` — the node itself — rather than the preceding sibling
`children[i - 1]`. -/
theorem C10_previousSibling_self {T : Type} [DecidableEq T] (p : TreeL T)
    (x : TreeL T) (hmem : x ∈ p.children) :
    previousSibling (none : Option (TreeL T)) x = none ∧
    (p.children.indexOf x = 0 → previousSibling (some p) x = none) ∧
    (0 < p.children.indexOf x → previousSibling (some p) x = some x) := by
  refine ⟨rfl, ?_, ?_⟩
  · intro h0
    simp [previousSibling, h0]
  · intro hpos
    simp only [previousSibling]
    rw [if_pos hpos]
    have hlt : p.children.indexOf x < p.children.length :=
      List.indexOf_lt_length.mpr hmem
    rw [List.getElem?_eq_getElem hlt, List.getElem_indexOf hlt]

/-- Witness for C10: in the tree `0 → [1, 2]`, the second child's
`previousSibling` is that child itself, not the first child. -/
theorem C10_witness :
    (TreeL.node 2 [] : TreeL Nat) ∈
        (TreeL.node 0 [TreeL.node 1 [], TreeL.node 2 []]).children ∧
      0 < (TreeL.node 0 [TreeL.node 1 [], TreeL.node 2 []]).children.indexOf
        (TreeL.node 2 []) ∧
      previousSibling (some (TreeL.node 0 [TreeL.node 1 [], TreeL.node 2 []]))
        (TreeL.node 2 []) = some (TreeL.node 2 []) :=
  ⟨by decide, by decide,
    (C10_previousSibling_self (TreeL.node 0 [TreeL.node 1 [], TreeL.node 2 []])
      (TreeL.node 2 []) (by decide)).2.2 (by decide)⟩

end ClaimC10




end Spec2Proof
